/-
Verification of the day-25 minimum-cut graph partitioning engine
(`snowverload.py`): a shallow embedding of `UndirectedGraph.from_lines`
and `UndirectedGraph.calculate_min_cut` (Karger's random contraction
algorithm with a two-stage optimisation), together with proofs of the
specified properties.

Modelling conventions:
* Python strings are Lean `String`; Python's `<` on strings agrees with
  Lean's lexicographic `<` for the ASCII labels used here.
* Python `dict`/`set`/`Counter` values are embedded as association lists,
  `Finset`s, and total functions into `Nat` (a missing `Counter` key is
  multiplicity 0).  Python compares dicts and sets extensionally, so
  extensional equality of these embeddings matches Python `==`.
* The pseudo-random number generator is an explicit stream `rng : Nat → Nat`;
  the call `randrange(len(edges_list))` is embedded as `rng k % len`,
  where `k` counts the calls made so far.  Quantifying over all streams
  covers every possible sequence of random draws.
* The source's outer `while True` loop can run forever; the embedding takes
  a `fuel` bound and returns `fuelOut` when it is exhausted.  A raised
  Python exception (failed `assert`, `pop` from an empty list) is `crash`.
* Iteration order over a Python set / `Counter` is unspecified /
  insertion-ordered; the embedding iterates in a fixed canonical order
  (first occurrence for parsing, sorted for contraction).  Every property
  proved here is insensitive to that order.
-/
import Mathlib

set_option maxHeartbeats 1000000
set_option maxRecDepth 100000

/-! ## Input parsing (`UndirectedGraph.from_lines`, source lines 20, 28-49) -/

/-- The character class `[a-z]` of `VERTEX_ADJACENCIES_LINE_PATTERN`. -/
def isLowerAZ (c : Char) : Bool := 'a' ≤ c && c ≤ 'z'

/-- `str.split()` on a list of characters: split on runs of spaces,
dropping empty pieces.  (After a successful pattern match the adjacency
field contains only spaces and lowercase letters.) -/
def splitWordsAux : List Char → List Char → List String
  | cur, [] => if cur.isEmpty then [] else [String.mk cur.reverse]
  | cur, c :: rest =>
    if c = ' ' then
      if cur.isEmpty then splitWordsAux [] rest
      else String.mk cur.reverse :: splitWordsAux [] rest
    else splitWordsAux (c :: cur) rest

def splitWords (cs : List Char) : List String := splitWordsAux [] cs

/-- `VERTEX_ADJACENCIES_LINE_PATTERN.fullmatch(line)`, i.e. the regex
`^([a-z]+): *([ a-z]+)$`, returning the declared vertex and the
whitespace-split list of adjacent-vertex tokens.  A full match decomposes
the line as a nonempty lowercase group, a literal `':'`, and a nonempty
remainder of spaces and lowercase letters (the `' *'` merely shifts where
group 2 starts, which `split()` erases). -/
def parseLine (line : String) : Option (String × List String) :=
  let cs := line.data
  let v := cs.takeWhile isLowerAZ
  match cs.dropWhile isLowerAZ with
  | ':' :: rest =>
    if !v.isEmpty && !rest.isEmpty && rest.all (fun c => c = ' ' || isLowerAZ c) then
      some (String.mk v, splitWords rest)
    else none
  | _ => none

/-- Errors raised by `from_lines`: the `ValueError` for a line that does not
match the pattern (its message carries the 1-based line number and the
offending line's content), and the `AssertionError` from
`assert adjacent_vertex != vertex` for a self-loop declaration. -/
inductive FromLinesError where
  | invalidLine (lineNumber : Nat) (line : String)
  | selfLoop
deriving DecidableEq, Repr

/-- Structurally recursive lexicographic comparison of character lists.
Python's `<` on strings is lexicographic comparison of code points, which
for `String` is the ambient strict order (`lexLt_iff_lt` below); this
Boolean version evaluates inside the kernel, which the iterator-based
decision procedure does not. -/
def lexLt : List Char → List Char → Bool
  | [], [] => false
  | [], _ :: _ => true
  | _ :: _, [] => false
  | a :: as, b :: bs => if a < b then true else if b < a then false else lexLt as bs

theorem lexLt_iff_lex (as bs : List Char) : lexLt as bs = true ↔ List.Lex (· < ·) as bs := by
  induction as generalizing bs with
  | nil =>
    cases bs with
    | nil => simp [lexLt]
    | cons b bs => simpa [lexLt] using List.Lex.nil
  | cons a as ih =>
    cases bs with
    | nil => simp [lexLt]
    | cons b bs =>
      rcases lt_trichotomy a b with hab | hab | hab
      · simp only [lexLt, if_pos hab, true_iff]
        exact List.Lex.rel hab
      · subst hab
        simp [lexLt, lt_irrefl, ih, List.Lex.cons_iff]
      · simp only [lexLt, if_neg (asymm hab), if_pos hab]
        refine ⟨fun h => absurd h (by decide), fun h => ?_⟩
        cases h with
        | cons h => exact absurd rfl (ne_of_gt hab)
        | rel h => exact absurd h (asymm hab)

theorem lexLt_iff_lt (a b : String) : lexLt a.data b.data = true ↔ a < b := by
  rw [lexLt_iff_lex, String.lt_iff_toList_lt]
  exact Iff.rfl

/-- A kernel-reducible decision procedure for `<` on `String`, installed
with high priority so that every `if a < b` in the embedding evaluates by
`decide`/`rfl`. -/
instance (priority := 1100) strDecLt : (a b : String) → Decidable (a < b) := fun a b =>
  decidable_of_iff (lexLt a.data b.data = true) (lexLt_iff_lt a b)

/-- A kernel-reducible decision procedure for `≤` on `String`. -/
instance (priority := 1100) strDecLe : (a b : String) → Decidable (a ≤ b) := fun a b =>
  decidable_of_iff (lexLt b.data a.data = false)
    (by rw [← Bool.not_eq_true, lexLt_iff_lt]; exact not_lt)

/-- `(vertex, adjacent_vertex) if vertex < adjacent_vertex else
(adjacent_vertex, vertex)` (source lines 48, 119-120): edges are stored with
the lexicographically smaller endpoint first. -/
def pyOrder (a b : String) : String × String := if a < b then (a, b) else (b, a)

structure UndirectedGraph where
  vertex_adjacencies : List (String × Finset String)
  edges : List (String × String)
deriving DecidableEq

namespace UndirectedGraph

/-- Dictionary lookup `vertex_adjacencies[v]`, defaulting to the empty set
for an absent key. -/
def adjOf (g : UndirectedGraph) (v : String) : Finset String :=
  (g.vertex_adjacencies.lookup v).getD ∅

/-- The keys of `vertex_adjacencies`: the full vertex set of the graph. -/
def vertexSet (g : UndirectedGraph) : Finset String :=
  (g.vertex_adjacencies.map Prod.fst).toFinset

/-- `if vertex not in vertex_adjacencies: vertex_adjacencies[vertex] = vs
else: vertex_adjacencies[vertex] |= vs` (new keys are appended; an existing
key's set is unioned in place). -/
def addToDict (d : List (String × Finset String)) (k : String) (vs : Finset String) :
    List (String × Finset String) :=
  if (d.lookup k).isSome then
    d.map (fun p => if p.1 = k then (p.1, p.2 ∪ vs) else p)
  else d ++ [(k, vs)]

/-- `edges.add(e)` for the `set` of edges, keeping the list duplicate-free. -/
def addEdge (es : List (String × String)) (e : String × String) : List (String × String) :=
  if e ∈ es then es else es ++ [e]

/-- The body of `from_lines`'s per-line loop (source lines 36-48): record the
declared vertex's adjacency set, then for each adjacent vertex check the
self-loop assertion, record the symmetric adjacency, and add the ordered
edge. -/
def processLine (d : List (String × Finset String)) (es : List (String × String))
    (v : String) (ws : List String) :
    Except FromLinesError (List (String × Finset String) × List (String × String)) :=
  let dedup := ws.foldl (fun acc w => if w ∈ acc then acc else acc ++ [w]) []
  let d1 := addToDict d v dedup.toFinset
  if v ∈ dedup then .error .selfLoop
  else .ok (dedup.foldl
    (fun st w => (addToDict st.1 w {v}, addEdge st.2 (pyOrder v w)))
    (d1, es))

def from_linesAux : Nat → List (String × Finset String) → List (String × String) →
    List String → Except FromLinesError UndirectedGraph
  | _, d, es, [] => .ok ⟨d, es⟩
  | i, d, es, line :: rest =>
    match parseLine line with
    | none => .error (.invalidLine (i + 1) line)
    | some (v, ws) =>
      match processLine d es v ws with
      | .error e => .error e
      | .ok (d', es') => from_linesAux (i + 1) d' es' rest

/-- `UndirectedGraph.from_lines` (source lines 28-49). -/
def from_lines (lines : List String) : Except FromLinesError UndirectedGraph :=
  from_linesAux 0 [] [] lines

end UndirectedGraph

/-! ## The contraction engine (`UndirectedGraph.calculate_min_cut`, source lines 51-137) -/

/-- The working state of one contraction trial: the Python locals
`vertex_adjacencies` (a dict of `Counter`s, embedded as the key set `live`
plus the total multiplicity function `adj`, an absent key having
multiplicity 0), `edges_list`, `edges_set`, and `vertex_contractions`
(embedded as `contr` plus its key set `contrKeys`). -/
structure TrialState where
  live : Finset String
  adj : String → String → Nat
  edges_list : List (String × String)
  edges_set : Finset (String × String)
  contr : String → Finset String
  contrKeys : Finset String

/-- The state initialised from the original graph (source lines 87-90):
`Counter(adjacent_vertices)` gives every declared adjacency multiplicity 1,
`edges_list = list(self.edges)`, `edges_set = self.edges.copy()`, and
`vertex_contractions = {vertex: {vertex} ...}`. -/
def initTrial (g : UndirectedGraph) : TrialState where
  live := g.vertexSet
  adj := fun a b => if b ∈ g.adjOf a then 1 else 0
  edges_list := g.edges
  edges_set := g.edges.toFinset
  contr := fun v => {v}
  contrKeys := g.vertexSet

/-- A canonical listing of a `Finset String` in increasing order, used to
fix the (unobservable) iteration order over a Python `Counter`'s keys.
Insertion sort is structurally recursive, so this definition evaluates
inside the kernel. -/
def sortedList (s : Finset String) : List String :=
  Quotient.lift (List.insertionSort (· ≤ ·))
    (fun a b h => List.eq_of_perm_of_sorted
      ((List.perm_insertionSort _ a).trans
        (List.Perm.trans (show List.Perm a b from h) (List.perm_insertionSort _ b).symm))
      (List.sorted_insertionSort _ a) (List.sorted_insertionSort _ b)) s.val

/-- The body of the `for adjacent_vertex in vertex_adjacencies[subnode]`
loop (source lines 113-125): add `subnode`'s multiplicity towards `w` onto
both sides of the `supernode`-`w` adjacency, delete `w`'s entry for
`subnode`, replace the edge `{subnode, w}` by `{supernode, w}` in
`edges_list`/`edges_set` (appending only if not already present). -/
def redirect (supernode subnode : String) (s : TrialState) (w : String) : TrialState :=
  let c := s.adj w subnode
  let adj' := fun a b =>
    if a = supernode ∧ b = w then s.adj a b + c
    else if a = w ∧ b = supernode then s.adj a b + c
    else if a = w ∧ b = subnode then 0
    else s.adj a b
  let old_edge := pyOrder subnode w
  let new_edge := pyOrder supernode w
  let el := s.edges_list.erase old_edge
  let es := s.edges_set.erase old_edge
  if new_edge ∈ es then
    { s with adj := adj', edges_list := el, edges_set := es }
  else
    { s with adj := adj', edges_list := el ++ [new_edge], edges_set := insert new_edge es }

/-- The edge popped by `edges_list.pop(randrange(len(edges_list)))`
(source line 107), with the raw draw `k` reduced modulo the list length. -/
def contractPick (s : TrialState) (k : Nat) : String × String :=
  s.edges_list.getD (k % s.edges_list.length) ("", "")

/-- Source lines 109-111: the mutual adjacency entries of the endpoints of
the contracted edge `(p, q)` are deleted (their multiplicity would become a
self-loop). -/
def contractAdj1 (s : TrialState) (p q : String) : String → String → Nat :=
  fun a b => if (a = p ∧ b = q) ∨ (a = q ∧ b = p) then 0 else s.adj a b

/-- Source lines 107-111: the state after popping the edge `(p, q)` at
index `i` from `edges_list`, removing it from `edges_set`, and deleting the
mutual adjacency entries. -/
def contractPre (s : TrialState) (p q : String) (i : Nat) : TrialState :=
  { s with
    adj := contractAdj1 s p q
    edges_list := s.edges_list.eraseIdx i
    edges_set := s.edges_set.erase (p, q) }

/-- The iteration domain of `for adjacent_vertex in vertex_adjacencies[subnode]`
(source line 113): the keys of `subnode`'s counter after line 111, i.e. the
vertices with positive multiplicity towards `q` other than `p`, listed in a
canonical order. -/
def contractNbrs (s : TrialState) (p q : String) : List String :=
  sortedList (s.live.filter (fun w => 0 < contractAdj1 s p q q w))

/-- Source lines 113-125: the fold of `redirect` over `subnode`'s
neighbours. -/
def contractFold (s : TrialState) (p q : String) (i : Nat) : TrialState :=
  (contractNbrs s p q).foldl (redirect p q) (contractPre s p q i)

/-- The body of one contraction (source lines 107-129) once the edge
`(supernode, subnode) = (p, q)` popped at index `i` is known: after the
neighbour fold, delete `subnode`'s adjacency row (line 126) and merge the
contraction records (lines 128-129). -/
def contractCore (s : TrialState) (p q : String) (i : Nat) : TrialState where
  live := (contractFold s p q i).live.erase q
  adj := fun a b => if a = q then 0 else (contractFold s p q i).adj a b
  edges_list := (contractFold s p q i).edges_list
  edges_set := (contractFold s p q i).edges_set
  contr := fun v =>
    if v = p then (contractFold s p q i).contr p ∪ (contractFold s p q i).contr q
    else (contractFold s p q i).contr v
  contrKeys := (contractFold s p q i).contrKeys.erase q

/-- One iteration of the contraction loop body (source lines 106-129),
driven by the raw random draw `k`. -/
def contractStep (s : TrialState) (k : Nat) : TrialState :=
  contractCore s (contractPick s k).1 (contractPick s k).2 (k % s.edges_list.length)

/-- A sequence of contraction steps driven by the raw draws `ks`. -/
def contractSteps (s : TrialState) (ks : List Nat) : TrialState := ks.foldl contractStep s

/-- The multiplicity of the edge contracted by `contractStep s k`: this many
parallel edges are discarded as self-loops in that step. -/
def discardOf (s : TrialState) (k : Nat) : Nat :=
  s.adj (contractPick s k).1 (contractPick s k).2

/-- Total multiplicity of the edges discarded as self-loops along a sequence
of contraction steps. -/
def discardedMass (s : TrialState) : List Nat → Nat
  | [] => 0
  | k :: ks => discardOf s k + discardedMass (contractStep s k) ks

/-- The sum of all adjacency multiplicities over all live vertices (each
edge of the working multigraph contributes twice). -/
def totalMass (s : TrialState) : Nat := ∑ a ∈ s.live, ∑ b ∈ s.live, s.adj a b

/-- The number of edges of the original graph with one endpoint in `A` and
the other in `B`. -/
def crossCount (g : UndirectedGraph) (A B : Finset String) : Nat :=
  g.edges.countP (fun e => decide ((e.1 ∈ A ∧ e.2 ∈ B) ∨ (e.1 ∈ B ∧ e.2 ∈ A)))

/-- `stage_one_min_vertices = ceil(2 / MIN_CUT_STAGE_ONE_FAILURE_PROBABILITY)`
(source lines 21, 76).  Under IEEE-754 double arithmetic
`2 / 0.01 = 199.99999999999997`, so `ceil` gives 200 — the same value as in
exact real arithmetic. -/
def stage_one_min_vertices : Nat := 200

/-- `stage_two_max_iterations = ceil(comb(200, 2) * log(200))`
(source line 79).  `comb(200, 2) = 19900` and
`19900 * log(200) = 105436.515…`, so `ceil` gives 105437 (the IEEE-754
double evaluation agrees with exact real arithmetic; this is proved
against `Real.log` below). -/
def stage_two_max_iterations : Nat := 105437

/-- The outer-loop bookkeeping variables of `calculate_min_cut`
(source lines 77-78). -/
structure KargerState where
  stage_one_results : Option TrialState
  stage_two_iterations : Nat

/-- The stage bookkeeping performed at the top of every contraction
iteration (source lines 92-105): at exactly `stage_one_min_vertices` live
vertices either count a new stage-two trial or cache the current state, and
once `stage_two_iterations` reaches `stage_two_max_iterations` discard the
cached stage-one state. -/
def stageBookkeeping (ks : KargerState) (s : TrialState) : KargerState :=
  let ks1 :=
    if s.live.card = stage_one_min_vertices then
      match ks.stage_one_results with
      | some _ => { ks with stage_two_iterations := ks.stage_two_iterations + 1 }
      | none => { stage_one_results := some s, stage_two_iterations := 1 }
    else ks
  if stage_two_max_iterations ≤ ks1.stage_two_iterations then
    { ks1 with stage_one_results := none }
  else ks1

/-- The result of running `calculate_min_cut` with a fuel bound: `ok` is a
normal return, `crash` a raised exception (a failed `assert`, or `pop` from
an empty `edges_list`), and `fuelOut` the model's bound on the source's
unbounded `while True` loop. -/
inductive RunOutcome where
  | ok (answer : Finset String × Finset String)
  | crash
  | fuelOut
deriving DecidableEq

/-- The combined outer/inner loop of `calculate_min_cut` (source lines
80-137).  A configuration with trial state `none` is at the top of the
outer `while True` loop, about to materialise a working state from the
cached stage-one results or from the original graph (lines 81-90); a
configuration with `some s` is inside the trial.  `k` counts `randrange`
calls. -/
def runAux (g : UndirectedGraph) (target : Nat) (rng : Nat → Nat) :
    Nat → KargerState → Option TrialState → Nat → RunOutcome
  | 0, _, _, _ => .fuelOut
  | fuel + 1, ks, none, k =>
    runAux g target rng fuel ks (some (ks.stage_one_results.getD (initTrial g))) k
  | fuel + 1, ks, some s, k =>
    if 1 < s.edges_list.length then
      runAux g target rng fuel (stageBookkeeping ks s) (some (contractStep s (rng k))) (k + 1)
    else
      -- source lines 130-137
      if s.live.card = 2 ∧ s.contrKeys.card = 2 then
        match s.edges_list.getLast? with
        | none => .crash  -- `edges_list.pop()` raises IndexError on an empty list
        | some e =>
          if s.adj e.1 e.2 = s.adj e.2 e.1 ∧ e.1 ∈ s.contrKeys ∧ e.2 ∈ s.contrKeys then
            if s.adj e.1 e.2 = target then
              .ok (if e.1 < e.2 then (s.contr e.1, s.contr e.2)
                   else (s.contr e.2, s.contr e.1))
            else runAux g target rng fuel ks none k
          else .crash
      else .crash

/-- `UndirectedGraph.calculate_min_cut` (source lines 51-137), with the
random draws supplied by `rng` and the unbounded retry loop bounded by
`fuel`. -/
def UndirectedGraph.calculate_min_cut (g : UndirectedGraph) (target : Nat)
    (rng : Nat → Nat) (fuel : Nat) : RunOutcome :=
  runAux g target rng fuel ⟨none, 1⟩ none 0

/-- The contraction loop's body as executed inside a trial (source lines
91-129): a contraction step happens only while `len(edges_list) > 1`
(otherwise `randrange` is never called and the loop exits). -/
def trialStep (s : TrialState) (k : Nat) : TrialState :=
  if 1 < s.edges_list.length then contractStep s k else s

/-- The state of a trial after the guarded contraction steps driven by the
raw draws `ks` (the prefix of `while len(edges_list) > 1` iterations). -/
def trialRun (s : TrialState) (ks : List Nat) : TrialState := ks.foldl trialStep s

/-- Total multiplicity of the edges discarded as self-loops along a guarded
trial prefix. -/
def trialDiscarded : TrialState → List Nat → Nat
  | _, [] => 0
  | s, k :: ks =>
    (if 1 < s.edges_list.length then discardOf s k else 0) + trialDiscarded (trialStep s k) ks

/-! ## Concrete instances and further notions used by the claims -/

/-- A triangle graph, small enough for concrete runs to evaluate quickly. -/
def triangleGraph : UndirectedGraph :=
  match UndirectedGraph.from_lines ["a: b c", "b: c"] with
  | .ok g => g
  | .error _ => ⟨[], []⟩

/-- The graph of the two-line duplicate declaration `['a: b', 'a: b c']`. -/
def dupGraphA : UndirectedGraph :=
  match UndirectedGraph.from_lines ["a: b", "a: b c"] with
  | .ok g => g
  | .error _ => ⟨[], []⟩

/-- The graph of the merged single declaration `['a: b c']`. -/
def dupGraphB : UndirectedGraph :=
  match UndirectedGraph.from_lines ["a: b c"] with
  | .ok g => g
  | .error _ => ⟨[], []⟩

/-- Dictionary lookup with default, over the raw association list (the value
`vertex_adjacencies[x]` has in Python, with `∅` for a missing key). -/
def dictGet (d : List (String × Finset String)) (x : String) : Finset String :=
  (d.lookup x).getD ∅

/-- The key set of a raw association list. -/
def dictKeys (d : List (String × Finset String)) : Finset String :=
  (d.map Prod.fst).toFinset

/-- Python `==` on `UndirectedGraph` values: `dict` equality compares the key
set and the value at each key (insertion order is invisible to `==`), and `set`
equality is extensional. -/
def pyEq (g h : UndirectedGraph) : Prop :=
  g.vertexSet = h.vertexSet ∧
  (∀ v ∈ g.vertexSet, g.adjOf v = h.adjOf v) ∧
  g.edges.toFinset = h.edges.toFinset

/-- The configurations `calculate_min_cut` visits, as a reachability
relation mirroring `runAux` step for step: the initial bookkeeping state
(source lines 77-78), materialising a working state at the top of the outer
loop (lines 81-90), one guarded contraction (lines 91-129), and falling
through to the next outer iteration after a non-matching final multiplicity
(lines 130-137). -/
inductive RunReach (g : UndirectedGraph) (target : Nat) (rng : Nat → Nat) :
    KargerState → Option TrialState → Nat → Prop where
  | start : RunReach g target rng ⟨none, 1⟩ none 0
  | materialise (ks : KargerState) (k : Nat) :
      RunReach g target rng ks none k →
      RunReach g target rng ks (some (ks.stage_one_results.getD (initTrial g))) k
  | contract (ks : KargerState) (s : TrialState) (k : Nat) :
      RunReach g target rng ks (some s) k →
      1 < s.edges_list.length →
      RunReach g target rng (stageBookkeeping ks s) (some (contractStep s (rng k))) (k + 1)
  | retry (ks : KargerState) (s : TrialState) (k : Nat) (e : String × String) :
      RunReach g target rng ks (some s) k →
      ¬ 1 < s.edges_list.length →
      s.live.card = 2 ∧ s.contrKeys.card = 2 →
      s.edges_list.getLast? = some e →
      s.adj e.1 e.2 = s.adj e.2 e.1 ∧ e.1 ∈ s.contrKeys ∧ e.2 ∈ s.contrKeys →
      s.adj e.1 e.2 ≠ target →
      RunReach g target rng ks none k

/-! ## Well-formedness of input graphs and the trial invariant -/

theorem mem_sortedList {x : String} {t : Finset String} : x ∈ sortedList t ↔ x ∈ t := by
  rcases t with ⟨m, hm⟩
  induction m using Quotient.inductionOn with
  | h l => simpa [sortedList] using List.mem_insertionSort (· ≤ ·)

theorem nodup_sortedList (t : Finset String) : (sortedList t).Nodup := by
  rcases t with ⟨m, hm⟩
  induction m using Quotient.inductionOn with
  | h l =>
    exact ((List.perm_insertionSort (· ≤ ·) l).nodup_iff).mpr hm

theorem pyOrder_fst_lt_snd {a b : String} (h : a ≠ b) :
    (pyOrder a b).1 < (pyOrder a b).2 := by
  unfold pyOrder
  rcases lt_or_gt_of_ne h with h' | h'
  · rw [if_pos h']; exact h'
  · rw [if_neg (asymm h')]; exact h'

theorem pyOrder_comm (a b : String) (h : a ≠ b) : pyOrder a b = pyOrder b a := by
  unfold pyOrder
  rcases lt_or_gt_of_ne h with h' | h'
  · rw [if_pos h', if_neg (asymm h')]
  · rw [if_neg (asymm h'), if_pos h']

theorem pyOrder_mem_pair {a b : String} :
    (pyOrder a b).1 = a ∧ (pyOrder a b).2 = b ∨ (pyOrder a b).1 = b ∧ (pyOrder a b).2 = a := by
  unfold pyOrder
  split
  · exact Or.inl ⟨rfl, rfl⟩
  · exact Or.inr ⟨rfl, rfl⟩

namespace UndirectedGraph

theorem lookup_none_of_not_mem_keys {α : Type} {d : List (String × α)} {v : String}
    (h : ∀ p ∈ d, p.1 ≠ v) : d.lookup v = none := by
  induction d with
  | nil => rfl
  | cons p rest ih =>
    rcases p with ⟨k, x⟩
    rw [List.lookup_cons]
    have hk : ¬ (v == k) = true := by
      simp only [beq_iff_eq]
      intro hvk
      exact h (k, x) (List.mem_cons_self _ _) (by simp [hvk])
    simp only [hk, if_neg, Bool.false_eq_true, if_false]
    exact ih fun p hp => h p (List.mem_cons_of_mem _ hp)

theorem adjOf_of_not_mem_vertexSet {g : UndirectedGraph} {v : String}
    (h : v ∉ g.vertexSet) : g.adjOf v = ∅ := by
  unfold adjOf
  have hnone : g.vertex_adjacencies.lookup v = none := by
    apply lookup_none_of_not_mem_keys
    intro p hp hpv
    exact h (by
      simp only [vertexSet, List.mem_toFinset, List.mem_map]
      exact ⟨p, hp, hpv⟩)
  rw [hnone]
  rfl

/-- Well-formedness of a constructed graph: unique dictionary keys, a
symmetric irreflexive adjacency structure whose members are themselves
vertices, and an edge list that is duplicate-free and holds exactly the
ordered adjacent pairs. -/
def WF (g : UndirectedGraph) : Prop :=
  (g.vertex_adjacencies.map Prod.fst).Nodup ∧
  (∀ v ∈ g.vertexSet, ∀ w ∈ g.adjOf v, w ∈ g.vertexSet ∧ v ≠ w ∧ v ∈ g.adjOf w) ∧
  g.edges.Nodup ∧
  (∀ e ∈ g.edges, e.1 < e.2 ∧ e.1 ∈ g.vertexSet ∧ e.2 ∈ g.adjOf e.1) ∧
  (∀ v ∈ g.vertexSet, ∀ w ∈ g.adjOf v, pyOrder v w ∈ g.edges)

instance (g : UndirectedGraph) : Decidable (WF g) := by
  unfold WF
  infer_instance

theorem WF.mem_vertexSet_of_adjOf {g : UndirectedGraph} (hg : g.WF) {v w : String}
    (h : w ∈ g.adjOf v) : v ∈ g.vertexSet := by
  by_contra hv
  rw [g.adjOf_of_not_mem_vertexSet hv] at h
  exact absurd h (Finset.not_mem_empty w)

end UndirectedGraph

/-- The state-level invariant maintained by the contraction loop: the
adjacency multiplicities are a symmetric, irreflexive function supported on
the live vertices; `edges_set` holds exactly the ordered pairs of positive
multiplicity and `edges_list` lists `edges_set` without duplicates; the
contraction records of the live vertices partition the original vertex set,
each live vertex is the minimum of its own record, and the multiplicity
between two live vertices counts the original edges between their
records. -/
structure TrialInv (g : UndirectedGraph) (s : TrialState) : Prop where
  symm : ∀ a b, s.adj a b = s.adj b a
  support : ∀ a b, 0 < s.adj a b → a ∈ s.live ∧ b ∈ s.live
  noSelf : ∀ a, s.adj a a = 0
  esAdj : ∀ e : String × String, e ∈ s.edges_set ↔ e.1 < e.2 ∧ 0 < s.adj e.1 e.2
  elNodup : s.edges_list.Nodup
  elSet : s.edges_list.toFinset = s.edges_set
  keysEq : s.contrKeys = s.live
  selfRec : ∀ v ∈ s.live, v ∈ s.contr v
  minRec : ∀ v ∈ s.live, ∀ u ∈ s.contr v, v ≤ u
  disjRec : ∀ u ∈ s.live, ∀ v ∈ s.live, u ≠ v → Disjoint (s.contr u) (s.contr v)
  cover : s.live.biUnion s.contr = g.vertexSet
  crossAdj : ∀ u ∈ s.live, ∀ v ∈ s.live, u ≠ v →
    s.adj u v = crossCount g (s.contr u) (s.contr v)

theorem TrialInv.liveSub {g : UndirectedGraph} {s : TrialState} (h : TrialInv g s) :
    s.live ⊆ g.vertexSet := by
  intro v hv
  rw [← h.cover]
  exact Finset.mem_biUnion.mpr ⟨v, hv, h.selfRec v hv⟩

/-! ## Characterising one contraction step -/

theorem pyOrder_eq_pair_iff {a b c d : String} (h : pyOrder a b = pyOrder c d) :
    (a = c ∧ b = d) ∨ (a = d ∧ b = c) := by
  rcases pyOrder_mem_pair (a := a) (b := b) with ⟨h1, h2⟩ | ⟨h1, h2⟩ <;>
    rcases pyOrder_mem_pair (a := c) (b := d) with ⟨h3, h4⟩ | ⟨h3, h4⟩ <;>
      rw [h] at h1 h2 <;> rw [h3] at h1 <;> rw [h4] at h2 <;> tauto

theorem toFinset_eraseIdx {l : List (String × String)} {i : Nat} (hnd : l.Nodup)
    (hi : i < l.length) :
    (l.eraseIdx i).toFinset = l.toFinset.erase l[i] := by
  ext x
  simp only [List.mem_toFinset, Finset.mem_erase, List.mem_eraseIdx_iff_getElem]
  constructor
  · rintro ⟨j, hj, hji, rfl⟩
    exact ⟨fun hx => hji ((List.Nodup.getElem_inj_iff hnd).mp hx), List.getElem_mem hj⟩
  · rintro ⟨hx, hmem⟩
    obtain ⟨j, hj, rfl⟩ := List.getElem_of_mem hmem
    refine ⟨j, hj, ?_, rfl⟩
    intro hji
    subst hji
    exact hx rfl

theorem toFinset_listErase {l : List (String × String)} (hnd : l.Nodup) (x : String × String) :
    (l.erase x).toFinset = l.toFinset.erase x := by
  ext y
  simp only [List.mem_toFinset, Finset.mem_erase, hnd.mem_erase_iff]

theorem redirect_live (p q : String) (s : TrialState) (w : String) :
    (redirect p q s w).live = s.live := by
  unfold redirect
  dsimp only
  split <;> rfl

theorem redirect_contr (p q : String) (s : TrialState) (w : String) :
    (redirect p q s w).contr = s.contr := by
  unfold redirect
  dsimp only
  split <;> rfl

theorem redirect_contrKeys (p q : String) (s : TrialState) (w : String) :
    (redirect p q s w).contrKeys = s.contrKeys := by
  unfold redirect
  dsimp only
  split <;> rfl

theorem redirect_adj (p q : String) (s : TrialState) (w a b : String) :
    (redirect p q s w).adj a b =
      if a = p ∧ b = w then s.adj a b + s.adj w q
      else if a = w ∧ b = p then s.adj a b + s.adj w q
      else if a = w ∧ b = q then 0
      else s.adj a b := by
  unfold redirect
  dsimp only
  split <;> rfl

theorem redirect_edges_set (p q : String) (s : TrialState) (w : String) :
    (redirect p q s w).edges_set =
      insert (pyOrder p w) (s.edges_set.erase (pyOrder q w)) := by
  unfold redirect
  dsimp only
  split
  · rename_i h
    exact (Finset.insert_eq_self.mpr h).symm
  · rfl

theorem redirect_el_nodup_toFinset (p q : String) (s : TrialState) (w : String)
    (hnd : s.edges_list.Nodup) (hset : s.edges_list.toFinset = s.edges_set) :
    (redirect p q s w).edges_list.Nodup ∧
      (redirect p q s w).edges_list.toFinset = (redirect p q s w).edges_set := by
  have hnd' : (s.edges_list.erase (pyOrder q w)).Nodup := hnd.erase _
  have hset' : (s.edges_list.erase (pyOrder q w)).toFinset =
      s.edges_set.erase (pyOrder q w) := by
    rw [toFinset_listErase hnd, hset]
  rw [redirect_edges_set]
  unfold redirect
  dsimp only
  split
  · rename_i h
    refine ⟨hnd', ?_⟩
    dsimp only
    rw [hset', (Finset.insert_eq_self.mpr h)]
  · rename_i h
    have hnm : pyOrder p w ∉ s.edges_list.erase (pyOrder q w) := by
      intro hmem
      exact h (by rw [← hset']; exact List.mem_toFinset.mpr hmem)
    refine ⟨?_, ?_⟩
    · dsimp only
      rw [List.nodup_append]
      exact ⟨hnd', List.nodup_singleton _, by simpa using hnm⟩
    · dsimp only
      rw [List.toFinset_append, List.toFinset_cons, List.toFinset_nil, hset',
        Finset.union_comm, Finset.insert_union, Finset.empty_union]

theorem foldl_redirect_live (p q : String) :
    ∀ (ws : List String) (s1 : TrialState), (ws.foldl (redirect p q) s1).live = s1.live
  | [], _ => rfl
  | w :: rest, s1 => by
    rw [List.foldl_cons, foldl_redirect_live p q rest, redirect_live]

theorem foldl_redirect_contr (p q : String) :
    ∀ (ws : List String) (s1 : TrialState), (ws.foldl (redirect p q) s1).contr = s1.contr
  | [], _ => rfl
  | w :: rest, s1 => by
    rw [List.foldl_cons, foldl_redirect_contr p q rest, redirect_contr]

theorem foldl_redirect_contrKeys (p q : String) :
    ∀ (ws : List String) (s1 : TrialState), (ws.foldl (redirect p q) s1).contrKeys = s1.contrKeys
  | [], _ => rfl
  | w :: rest, s1 => by
    rw [List.foldl_cons, foldl_redirect_contrKeys p q rest, redirect_contrKeys]

theorem foldl_redirect_el (p q : String) :
    ∀ (ws : List String) (s1 : TrialState), s1.edges_list.Nodup →
      s1.edges_list.toFinset = s1.edges_set →
      (ws.foldl (redirect p q) s1).edges_list.Nodup ∧
        (ws.foldl (redirect p q) s1).edges_list.toFinset = (ws.foldl (redirect p q) s1).edges_set
  | [], _, hnd, hset => ⟨hnd, hset⟩
  | w :: rest, s1, hnd, hset => by
    rw [List.foldl_cons]
    obtain ⟨hnd', hset'⟩ := redirect_el_nodup_toFinset p q s1 w hnd hset
    exact foldl_redirect_el p q rest _ hnd' hset'

set_option maxHeartbeats 4000000 in
theorem foldl_redirect_adj (p q : String) (hpq : p ≠ q) :
    ∀ (ws : List String) (s1 : TrialState), ws.Nodup → p ∉ ws → q ∉ ws → ∀ a b : String,
      (ws.foldl (redirect p q) s1).adj a b =
        if a = p ∧ b ∈ ws then s1.adj a b + s1.adj b q
        else if b = p ∧ a ∈ ws then s1.adj a b + s1.adj a q
        else if b = q ∧ a ∈ ws then 0
        else s1.adj a b
  | [], s1, _, _, _, a, b => by simp
  | w :: rest, s1, hnd, hp, hq, a, b => by
    have hwp : w ≠ p := fun h => hp (h ▸ List.mem_cons_self w rest)
    have hwq : w ≠ q := fun h => hq (h ▸ List.mem_cons_self w rest)
    have hwr : w ∉ rest := (List.nodup_cons.mp hnd).1
    have hpr : p ∉ rest := fun h => hp (List.mem_cons_of_mem _ h)
    have hqr : q ∉ rest := fun h => hq (List.mem_cons_of_mem _ h)
    rw [List.foldl_cons,
      foldl_redirect_adj p q hpq rest _ (List.nodup_cons.mp hnd).2 hpr hqr a b]
    by_cases hap : a = p <;> by_cases hbp : b = p <;>
      by_cases haw : a = w <;> by_cases hbw : b = w <;>
      by_cases hbq : b = q <;>
      by_cases har : a ∈ rest <;> by_cases hbr : b ∈ rest <;>
      simp_all [redirect_adj]

theorem foldl_redirect_edges_set (p q : String) (hpq : p ≠ q) :
    ∀ (ws : List String) (s1 : TrialState), p ∉ ws → q ∉ ws → ∀ x : String × String,
      (x ∈ (ws.foldl (redirect p q) s1).edges_set ↔
        (x ∈ s1.edges_set ∧ x ∉ ws.map (pyOrder q)) ∨ x ∈ ws.map (pyOrder p))
  | [], s1, _, _, x => by simp
  | w :: rest, s1, hp, hq, x => by
    have hwp : w ≠ p := fun h => hp (h ▸ List.mem_cons_self w rest)
    have hwq : w ≠ q := fun h => hq (h ▸ List.mem_cons_self w rest)
    have hpr : p ∉ rest := fun h => hp (List.mem_cons_of_mem _ h)
    have hqr : q ∉ rest := fun h => hq (List.mem_cons_of_mem _ h)
    rw [List.foldl_cons]
    rw [foldl_redirect_edges_set p q hpq rest _ hpr hqr x]
    rw [redirect_edges_set]
    simp only [Finset.mem_insert, Finset.mem_erase, List.map_cons, List.mem_cons]
    constructor
    · rintro (⟨(rfl | ⟨hne, hmem⟩), hrest⟩ | hnew)
      · -- x is the freshly inserted edge for w
        exact Or.inr (Or.inl rfl)
      · exact Or.inl ⟨hmem, by
          push_neg
          exact ⟨fun h => hne (by rw [h]), fun h => hrest h⟩⟩
      · exact Or.inr (Or.inr hnew)
    · rintro (⟨hmem, hnot⟩ | (rfl | hnew))
      · push_neg at hnot
        exact Or.inl ⟨Or.inr ⟨fun h => hnot.1 (by rw [← h]), hmem⟩, hnot.2⟩
      · -- the new edge for w is never an old edge of a later neighbour
        refine Or.inl ⟨Or.inl rfl, fun hmem => ?_⟩
        rcases List.mem_map.mp hmem with ⟨w', hw', hEq⟩
        rcases pyOrder_eq_pair_iff hEq.symm with ⟨h1, _⟩ | ⟨_, h2⟩
        · exact hpq h1
        · exact hwq h2
      · refine Or.inr hnew

section ContractSpec

variable {g : UndirectedGraph} {s : TrialState} {p q : String} {i : Nat}

theorem mem_contractNbrs (hinv : TrialInv g s) (hne' : p ≠ q) (w : String) :
    w ∈ contractNbrs s p q ↔ w ∈ s.live ∧ w ≠ p ∧ 0 < s.adj q w := by
  rw [contractNbrs, mem_sortedList, Finset.mem_filter, and_congr_right_iff]
  intro _
  unfold contractAdj1
  by_cases hwp : w = p
  · simp [hwp, Ne.symm hne']
  · simp [hwp, Ne.symm hne']

theorem not_mem_contractNbrs_left (hinv : TrialInv g s) (hne' : p ≠ q) :
    p ∉ contractNbrs s p q := by
  rw [mem_contractNbrs hinv hne']
  rintro ⟨-, h, -⟩
  exact h rfl

theorem not_mem_contractNbrs_right (hinv : TrialInv g s) (hne' : p ≠ q) :
    q ∉ contractNbrs s p q := by
  rw [mem_contractNbrs hinv hne']
  rintro ⟨-, -, h⟩
  rw [hinv.noSelf q] at h
  exact absurd h (lt_irrefl 0)

theorem adj_eq_zero_of_not_nbrs (hinv : TrialInv g s) (hne' : p ≠ q) {x : String}
    (hx : x ∉ contractNbrs s p q) (hxp : x ≠ p) : s.adj q x = 0 := by
  by_contra h
  have hpos : 0 < s.adj q x := Nat.pos_of_ne_zero h
  exact hx ((mem_contractNbrs hinv hne' x).mpr ⟨(hinv.support q x hpos).2, hxp, hpos⟩)

theorem contractFold_live : (contractFold s p q i).live = s.live :=
  foldl_redirect_live p q _ _

theorem contractFold_contr : (contractFold s p q i).contr = s.contr :=
  foldl_redirect_contr p q _ _

theorem contractFold_contrKeys : (contractFold s p q i).contrKeys = s.contrKeys :=
  foldl_redirect_contrKeys p q _ _

theorem contractCore_live : (contractCore s p q i).live = s.live.erase q := by
  show (contractFold s p q i).live.erase q = s.live.erase q
  rw [contractFold_live]

theorem contractCore_contrKeys :
    (contractCore s p q i).contrKeys = s.contrKeys.erase q := by
  show (contractFold s p q i).contrKeys.erase q = s.contrKeys.erase q
  rw [contractFold_contrKeys]

theorem contractCore_contr (v : String) :
    (contractCore s p q i).contr v =
      if v = p then s.contr p ∪ s.contr q else s.contr v := by
  show (if v = p then (contractFold s p q i).contr p ∪ (contractFold s p q i).contr q
      else (contractFold s p q i).contr v) = _
  rw [contractFold_contr]

theorem contractFold_el (hinv : TrialInv g s) (hi : i < s.edges_list.length)
    (hei : s.edges_list[i] = (p, q)) :
    (contractFold s p q i).edges_list.Nodup ∧
      (contractFold s p q i).edges_list.toFinset = (contractFold s p q i).edges_set := by
  apply foldl_redirect_el
  · exact hinv.elNodup.eraseIdx i
  · show (s.edges_list.eraseIdx i).toFinset = s.edges_set.erase (p, q)
    rw [toFinset_eraseIdx hinv.elNodup hi, hei, hinv.elSet]

theorem contractCore_el (hinv : TrialInv g s) (hi : i < s.edges_list.length)
    (hei : s.edges_list[i] = (p, q)) :
    (contractCore s p q i).edges_list.Nodup ∧
      (contractCore s p q i).edges_list.toFinset = (contractCore s p q i).edges_set :=
  contractFold_el hinv hi hei

theorem contractCore_adj (hinv : TrialInv g s) (hlt : p < q) (a b : String) :
    (contractCore s p q i).adj a b =
      if a = q ∨ b = q then 0
      else if a = p ∧ b ≠ p then s.adj a b + s.adj q b
      else if b = p ∧ a ≠ p then s.adj a b + s.adj a q
      else s.adj a b := by
  have hne' : p ≠ q := ne_of_lt hlt
  have hfadj := foldl_redirect_adj p q hne' (contractNbrs s p q) (contractPre s p q i)
    (nodup_sortedList _) (not_mem_contractNbrs_left hinv hne')
    (not_mem_contractNbrs_right hinv hne')
  have hpre : ∀ x y, (contractPre s p q i).adj x y = contractAdj1 s p q x y := fun x y => rfl
  have hA : ∀ x y, ¬ ((x = p ∧ y = q) ∨ (x = q ∧ y = p)) →
      contractAdj1 s p q x y = s.adj x y := by
    intro x y h
    unfold contractAdj1
    rw [if_neg h]
  show (if a = q then 0 else (contractFold s p q i).adj a b) = _
  by_cases haq : a = q
  · rw [if_pos haq, if_pos (Or.inl haq)]
  · rw [if_neg haq,
      show (contractFold s p q i).adj a b =
        ((contractNbrs s p q).foldl (redirect p q) (contractPre s p q i)).adj a b from rfl,
      hfadj a b, hpre, hpre, hpre]
    by_cases hbq : b = q
    · -- the whole `q` column is deleted
      have hbqN : b ∉ contractNbrs s p q := by
        rw [hbq]
        exact not_mem_contractNbrs_right hinv hne'
      rw [if_pos (Or.inr hbq),
        if_neg (show ¬(a = p ∧ b ∈ contractNbrs s p q) from fun h => hbqN h.2),
        if_neg (show ¬(b = p ∧ a ∈ contractNbrs s p q) from
          fun h => hne' (h.1.symm.trans hbq))]
      by_cases haN : a ∈ contractNbrs s p q
      · rw [if_pos (show b = q ∧ a ∈ contractNbrs s p q from ⟨hbq, haN⟩)]
      · rw [if_neg (show ¬(b = q ∧ a ∈ contractNbrs s p q) from fun h => haN h.2)]
        by_cases hap : a = p
        · unfold contractAdj1
          rw [if_pos (Or.inl ⟨hap, hbq⟩)]
        · rw [hA a b (by
            rintro (⟨h1, -⟩ | ⟨h1, -⟩)
            · exact hap h1
            · exact haq h1), hbq, hinv.symm a q]
          exact adj_eq_zero_of_not_nbrs hinv hne' haN hap
    · rw [if_neg (show ¬(a = q ∨ b = q) from fun h => h.elim haq hbq)]
      have hAab : contractAdj1 s p q a b = s.adj a b := hA a b (by
        rintro (⟨-, h2⟩ | ⟨h1, -⟩)
        · exact hbq h2
        · exact haq h1)
      by_cases hap : a = p
      · have hapN : a ∉ contractNbrs s p q := by
          rw [hap]
          exact not_mem_contractNbrs_left hinv hne'
        by_cases hbp : b = p
        · -- a = b = p: untouched
          have hbpN : b ∉ contractNbrs s p q := by
            rw [hbp]
            exact not_mem_contractNbrs_left hinv hne'
          rw [if_neg (show ¬(a = p ∧ b ∈ contractNbrs s p q) from fun h => hbpN h.2),
            if_neg (show ¬(b = p ∧ a ∈ contractNbrs s p q) from fun h => hapN h.2),
            if_neg (show ¬(b = q ∧ a ∈ contractNbrs s p q) from fun h => hbq h.1),
            hAab,
            if_neg (show ¬(a = p ∧ b ≠ p) from fun h => h.2 hbp),
            if_neg (show ¬(b = p ∧ a ≠ p) from fun h => h.2 hap)]
        · rw [if_pos (show a = p ∧ b ≠ p from ⟨hap, hbp⟩)]
          by_cases hbN : b ∈ contractNbrs s p q
          · rw [if_pos (show a = p ∧ b ∈ contractNbrs s p q from ⟨hap, hbN⟩), hAab,
              hA b q (by
                rintro (⟨h1, -⟩ | ⟨h1, -⟩)
                · exact hbp h1
                · exact hbq h1),
              hinv.symm b q]
          · rw [if_neg (show ¬(a = p ∧ b ∈ contractNbrs s p q) from fun h => hbN h.2),
              if_neg (show ¬(b = p ∧ a ∈ contractNbrs s p q) from fun h => hbp h.1),
              if_neg (show ¬(b = q ∧ a ∈ contractNbrs s p q) from fun h => hbq h.1),
              hAab, adj_eq_zero_of_not_nbrs hinv hne' hbN hbp, Nat.add_zero]
      · rw [if_neg (show ¬(a = p ∧ b ≠ p) from fun h => hap h.1),
          if_neg (show ¬(a = p ∧ b ∈ contractNbrs s p q) from fun h => hap h.1)]
        by_cases hbp : b = p
        · rw [if_pos (show b = p ∧ a ≠ p from ⟨hbp, hap⟩)]
          by_cases haN : a ∈ contractNbrs s p q
          · rw [if_pos (show b = p ∧ a ∈ contractNbrs s p q from ⟨hbp, haN⟩), hAab,
              hA a q (by
                rintro (⟨h1, -⟩ | ⟨h1, -⟩)
                · exact hap h1
                · exact haq h1)]
          · rw [if_neg (show ¬(b = p ∧ a ∈ contractNbrs s p q) from fun h => haN h.2),
              if_neg (show ¬(b = q ∧ a ∈ contractNbrs s p q) from fun h => hbq h.1),
              hAab]
            have : s.adj a q = 0 := by
              rw [hinv.symm a q]
              exact adj_eq_zero_of_not_nbrs hinv hne' haN hap
            rw [this, Nat.add_zero]
        · rw [if_neg (show ¬(b = p ∧ a ≠ p) from fun h => hbp h.1),
            if_neg (show ¬(b = p ∧ a ∈ contractNbrs s p q) from fun h => hbp h.1),
            if_neg (show ¬(b = q ∧ a ∈ contractNbrs s p q) from fun h => hbq h.1),
            hAab]

theorem contractCore_es (hinv : TrialInv g s) (hlt : p < q)
    (hi : i < s.edges_list.length) (hei : s.edges_list[i] = (p, q)) (x : String × String) :
    x ∈ (contractCore s p q i).edges_set ↔
      x.1 < x.2 ∧ 0 < (contractCore s p q i).adj x.1 x.2 := by
  have hne' : p ≠ q := ne_of_lt hlt
  have hfes := foldl_redirect_edges_set p q hne' (contractNbrs s p q) (contractPre s p q i)
    (not_mem_contractNbrs_left hinv hne') (not_mem_contractNbrs_right hinv hne') x
  have hpre : (contractPre s p q i).edges_set = s.edges_set.erase (p, q) := rfl
  have hnoq : ∀ y : String × String, y.1 ≠ q → y.2 ≠ q →
      y ∉ (contractNbrs s p q).map (pyOrder q) := by
    intro y hy1 hy2 hmem
    rcases List.mem_map.mp hmem with ⟨w, -, hEq⟩
    rcases pyOrder_mem_pair (a := q) (b := w) with ⟨h1, -⟩ | ⟨-, h2⟩
    · exact hy1 (by rw [← hEq, h1])
    · exact hy2 (by rw [← hEq, h2])
  show x ∈ ((contractNbrs s p q).foldl (redirect p q) (contractPre s p q i)).edges_set ↔ _
  rw [hfes, hpre]
  constructor
  · rintro (⟨hmem, hnot⟩ | hnew)
    · -- a surviving old edge
      have hxs := (hinv.esAdj x).mp (Finset.mem_of_mem_erase hmem)
      have hxe : x ≠ (p, q) := Finset.ne_of_mem_erase hmem
      have hx1q : x.1 ≠ q := by
        intro h1
        apply hnot
        have hq2 : 0 < s.adj q x.2 := by rw [← h1]; exact hxs.2
        have hx2p : x.2 ≠ p := by
          intro h2
          have := hxs.1
          rw [h1, h2] at this
          exact absurd hlt (asymm this)
        refine List.mem_map.mpr ⟨x.2,
          (mem_contractNbrs hinv hne' x.2).mpr ⟨(hinv.support q x.2 hq2).2, hx2p, hq2⟩, ?_⟩
        unfold pyOrder
        rw [if_pos (by rw [← h1]; exact hxs.1), ← h1]
      have hx2q : x.2 ≠ q := by
        intro h2
        apply hnot
        have hq1 : 0 < s.adj q x.1 := by
          rw [hinv.symm q x.1, ← h2]
          exact hxs.2
        have hx1p : x.1 ≠ p := by
          intro h1
          exact hxe (Prod.ext h1 h2)
        refine List.mem_map.mpr ⟨x.1,
          (mem_contractNbrs hinv hne' x.1).mpr ⟨(hinv.support q x.1 hq1).2, hx1p, hq1⟩, ?_⟩
        unfold pyOrder
        rw [if_neg (by rw [← h2]; exact asymm hxs.1), ← h2]
      refine ⟨hxs.1, ?_⟩
      rw [contractCore_adj hinv hlt,
        if_neg (show ¬(x.1 = q ∨ x.2 = q) from fun h => h.elim hx1q hx2q)]
      have hpos2 := hxs.2
      by_cases hp1 : x.1 = p ∧ x.2 ≠ p
      · rw [if_pos hp1]
        omega
      · rw [if_neg hp1]
        by_cases hp2 : x.2 = p ∧ x.1 ≠ p
        · rw [if_pos hp2]
          omega
        · rw [if_neg hp2]
          exact hpos2
    · -- a freshly created edge towards the supernode
      rcases List.mem_map.mp hnew with ⟨w, hw, rfl⟩
      obtain ⟨hwL, hwp, hwq0⟩ := (mem_contractNbrs hinv hne' w).mp hw
      have hwq : w ≠ q := by
        intro h
        rw [h, hinv.noSelf q] at hwq0
        exact absurd hwq0 (lt_irrefl 0)
      have hpw : p ≠ w := fun h => hwp h.symm
      refine ⟨pyOrder_fst_lt_snd hpw, ?_⟩
      rw [contractCore_adj hinv hlt]
      unfold pyOrder
      by_cases hplt : p < w
      · rw [if_pos hplt]
        dsimp only
        rw [if_neg (show ¬(p = q ∨ w = q) from by
          rintro (h | h)
          exacts [hne' h, hwq h]),
          if_pos (show p = p ∧ w ≠ p from ⟨rfl, hwp⟩)]
        have := hinv.symm q w
        omega
      · rw [if_neg hplt]
        dsimp only
        rw [if_neg (show ¬(w = q ∨ p = q) from by
          rintro (h | h)
          exacts [hwq h, hne' h]),
          if_neg (show ¬(w = p ∧ p ≠ p) from fun h => h.2 rfl),
          if_pos (show p = p ∧ w ≠ p from ⟨rfl, hwp⟩)]
        have := hinv.symm w q
        omega
  · rintro ⟨hord, hpos'⟩
    rw [contractCore_adj hinv hlt] at hpos'
    by_cases h1 : x.1 = q ∨ x.2 = q
    · rw [if_pos h1] at hpos'
      exact absurd hpos' (lt_irrefl 0)
    · rw [if_neg h1] at hpos'
      push_neg at h1
      obtain ⟨hx1q, hx2q⟩ := h1
      by_cases h2 : x.1 = p ∧ x.2 ≠ p
      · rw [if_pos h2] at hpos'
        by_cases hq2 : 0 < s.adj q x.2
        · refine Or.inr (List.mem_map.mpr ⟨x.2,
            (mem_contractNbrs hinv hne' x.2).mpr ⟨(hinv.support q x.2 hq2).2, h2.2, hq2⟩, ?_⟩)
          have : pyOrder p x.2 = (p, x.2) := by
            unfold pyOrder
            rw [if_pos (by rw [← h2.1]; exact hord)]
          rw [this, ← h2.1]
        · have hq20 : s.adj q x.2 = 0 := Nat.eq_zero_of_not_pos hq2
          have hpos'' : 0 < s.adj x.1 x.2 := by omega
          refine Or.inl ⟨Finset.mem_erase.mpr ⟨fun h => hx2q (by rw [h]),
            (hinv.esAdj x).mpr ⟨hord, hpos''⟩⟩, hnoq x hx1q hx2q⟩
      · rw [if_neg h2] at hpos'
        by_cases h3 : x.2 = p ∧ x.1 ≠ p
        · rw [if_pos h3] at hpos'
          by_cases hq1 : 0 < s.adj x.1 q
          · have hq1' : 0 < s.adj q x.1 := by
              rw [hinv.symm q x.1]
              exact hq1
            refine Or.inr (List.mem_map.mpr ⟨x.1,
              (mem_contractNbrs hinv hne' x.1).mpr
                ⟨(hinv.support q x.1 hq1').2, h3.2, hq1'⟩, ?_⟩)
            have : pyOrder p x.1 = (x.1, p) := by
              unfold pyOrder
              rw [if_neg (by rw [← h3.1]; exact asymm hord)]
            rw [this, ← h3.1]
          · have hq10 : s.adj x.1 q = 0 := Nat.eq_zero_of_not_pos hq1
            have hpos'' : 0 < s.adj x.1 x.2 := by omega
            refine Or.inl ⟨Finset.mem_erase.mpr ⟨fun h => hx2q (by rw [h]),
              (hinv.esAdj x).mpr ⟨hord, hpos''⟩⟩, hnoq x hx1q hx2q⟩
        · rw [if_neg h3] at hpos'
          refine Or.inl ⟨Finset.mem_erase.mpr ⟨fun h => hx2q (by rw [h]),
            (hinv.esAdj x).mpr ⟨hord, hpos'⟩⟩, hnoq x hx1q hx2q⟩

end ContractSpec

theorem countP_or_of_exclusive {α : Type} (l : List α) (f h : α → Bool)
    (hx : ∀ x ∈ l, ¬(f x = true ∧ h x = true)) :
    l.countP (fun x => f x || h x) = l.countP f + l.countP h := by
  induction l with
  | nil => rfl
  | cons y l ih =>
    rw [List.countP_cons, List.countP_cons, List.countP_cons,
      ih (fun x hxl => hx x (List.mem_cons_of_mem _ hxl))]
    by_cases hf : f y = true
    · have hh : ¬ h y = true := fun hh => hx y (List.mem_cons_self _ _) ⟨hf, hh⟩
      simp [hf, hh]
      omega
    · by_cases hh : h y = true
      · simp [hf, hh]
        omega
      · simp [hf, hh]

theorem crossCount_comm (g : UndirectedGraph) (A B : Finset String) :
    crossCount g A B = crossCount g B A := by
  unfold crossCount
  apply List.countP_congr
  intro e _
  simp only [decide_eq_true_eq]
  tauto

theorem crossCount_union_left (g : UndirectedGraph) {A B C : Finset String}
    (hAB : Disjoint A B) (hAC : Disjoint A C) (hBC : Disjoint B C) :
    crossCount g (A ∪ B) C = crossCount g A C + crossCount g B C := by
  unfold crossCount
  rw [show (fun e : String × String =>
      decide ((e.1 ∈ A ∪ B ∧ e.2 ∈ C) ∨ (e.1 ∈ C ∧ e.2 ∈ A ∪ B))) =
    (fun e : String × String =>
      decide ((e.1 ∈ A ∧ e.2 ∈ C) ∨ (e.1 ∈ C ∧ e.2 ∈ A)) ||
      decide ((e.1 ∈ B ∧ e.2 ∈ C) ∨ (e.1 ∈ C ∧ e.2 ∈ B))) from ?_]
  · apply countP_or_of_exclusive
    intro x _
    simp only [decide_eq_true_eq]
    rintro ⟨h1 | h1, h2 | h2⟩
    · exact Finset.disjoint_left.mp hAB h1.1 h2.1
    · exact Finset.disjoint_left.mp hAC h1.1 h2.1
    · exact Finset.disjoint_left.mp hAC h1.2 h2.2
    · exact Finset.disjoint_left.mp hAB h1.2 h2.2
  · funext e
    simp only [Finset.mem_union, decide_eq_true_eq, Bool.or_eq_true]
    by_cases h1 : (e.1 ∈ A ∧ e.2 ∈ C) ∨ (e.1 ∈ C ∧ e.2 ∈ A) <;>
      by_cases h2 : (e.1 ∈ B ∧ e.2 ∈ C) ∨ (e.1 ∈ C ∧ e.2 ∈ B) <;>
        simp [h1, h2] <;> tauto

theorem crossCount_union_right (g : UndirectedGraph) {A B C : Finset String}
    (hAB : Disjoint A B) (hCA : Disjoint C A) (hCB : Disjoint C B) :
    crossCount g C (A ∪ B) = crossCount g C A + crossCount g C B := by
  rw [crossCount_comm, crossCount_union_left g hAB hCA.symm hCB.symm,
    crossCount_comm g A C, crossCount_comm g B C]

section ContractSpec

variable {g : UndirectedGraph} {s : TrialState} {p q : String} {i : Nat}

/-- One contraction step preserves the trial invariant. -/
theorem contractCore_inv (hinv : TrialInv g s) (hlt : p < q) (hpos : 0 < s.adj p q)
    (hi : i < s.edges_list.length) (hei : s.edges_list[i] = (p, q)) :
    TrialInv g (contractCore s p q i) := by
  have hne' : p ≠ q := ne_of_lt hlt
  have hpL : p ∈ s.live := (hinv.support p q hpos).1
  have hqL : q ∈ s.live := (hinv.support p q hpos).2
  refine ⟨?_, ?_, ?_, contractCore_es hinv hlt hi hei,
    (contractCore_el hinv hi hei).1, (contractCore_el hinv hi hei).2,
    ?_, ?_, ?_, ?_, ?_, ?_⟩
  · -- symmetry
    intro a b
    rw [contractCore_adj hinv hlt, contractCore_adj hinv hlt]
    by_cases haq : a = q
    · rw [if_pos (Or.inl haq), if_pos (Or.inr haq)]
    · by_cases hbq : b = q
      · rw [if_pos (Or.inr hbq), if_pos (Or.inl hbq)]
      · rw [if_neg (show ¬(a = q ∨ b = q) from fun h => h.elim haq hbq),
          if_neg (show ¬(b = q ∨ a = q) from fun h => h.elim hbq haq)]
        by_cases hap : a = p
        · by_cases hbp : b = p
          · rw [if_neg (show ¬(a = p ∧ b ≠ p) from fun h => h.2 hbp),
              if_neg (show ¬(b = p ∧ a ≠ p) from fun h => h.2 hap),
              if_neg (show ¬(b = p ∧ a ≠ p) from fun h => h.2 hap),
              if_neg (show ¬(a = p ∧ b ≠ p) from fun h => h.2 hbp),
              hinv.symm a b]
          · rw [if_pos (show a = p ∧ b ≠ p from ⟨hap, hbp⟩),
              if_neg (show ¬(b = p ∧ a ≠ p) from fun h => hbp h.1),
              if_pos (show a = p ∧ b ≠ p from ⟨hap, hbp⟩),
              hinv.symm a b, hinv.symm q b]
        · by_cases hbp : b = p
          · rw [if_neg (show ¬(a = p ∧ b ≠ p) from fun h => hap h.1),
              if_pos (show b = p ∧ a ≠ p from ⟨hbp, hap⟩),
              if_pos (show b = p ∧ a ≠ p from ⟨hbp, hap⟩),
              hinv.symm a b, hinv.symm a q]
          · rw [if_neg (show ¬(a = p ∧ b ≠ p) from fun h => hap h.1),
              if_neg (show ¬(b = p ∧ a ≠ p) from fun h => hbp h.1),
              if_neg (show ¬(b = p ∧ a ≠ p) from fun h => hbp h.1),
              if_neg (show ¬(a = p ∧ b ≠ p) from fun h => hap h.1),
              hinv.symm a b]
  · -- support
    intro a b hab
    rw [contractCore_adj hinv hlt] at hab
    rw [contractCore_live]
    by_cases h1 : a = q ∨ b = q
    · rw [if_pos h1] at hab
      exact absurd hab (lt_irrefl 0)
    · rw [if_neg h1] at hab
      push_neg at h1
      refine ⟨Finset.mem_erase.mpr ⟨h1.1, ?_⟩, Finset.mem_erase.mpr ⟨h1.2, ?_⟩⟩
      · by_cases h2 : a = p ∧ b ≠ p
        · rw [h2.1]
          exact hpL
        · rw [if_neg h2] at hab
          by_cases h3 : b = p ∧ a ≠ p
          · rw [if_pos h3] at hab
            have : 0 < s.adj a b ∨ 0 < s.adj a q := by omega
            rcases this with h | h
            · exact (hinv.support a b h).1
            · exact (hinv.support a q h).1
          · rw [if_neg h3] at hab
            exact (hinv.support a b hab).1
      · by_cases h2 : a = p ∧ b ≠ p
        · rw [if_pos h2] at hab
          have : 0 < s.adj a b ∨ 0 < s.adj q b := by omega
          rcases this with h | h
          · exact (hinv.support a b h).2
          · exact (hinv.support q b h).2
        · rw [if_neg h2] at hab
          by_cases h3 : b = p ∧ a ≠ p
          · rw [h3.1]
            exact hpL
          · rw [if_neg h3] at hab
            exact (hinv.support a b hab).2
  · -- no self-loops
    intro a
    rw [contractCore_adj hinv hlt]
    by_cases haq : a = q
    · rw [if_pos (Or.inl haq)]
    · rw [if_neg (show ¬(a = q ∨ a = q) from fun h => h.elim haq haq),
        if_neg (show ¬(a = p ∧ a ≠ p) from fun h => h.2 h.1),
        if_neg (show ¬(a = p ∧ a ≠ p) from fun h => h.2 h.1)]
      exact hinv.noSelf a
  · -- contraction keys mirror the live vertices
    rw [contractCore_contrKeys, contractCore_live, hinv.keysEq]
  · -- each live vertex belongs to its own record
    intro v hv
    rw [contractCore_live] at hv
    obtain ⟨hvq, hvL⟩ := Finset.mem_erase.mp hv
    rw [contractCore_contr]
    by_cases hvp : v = p
    · subst hvp
      rw [if_pos rfl]
      exact Finset.mem_union_left _ (hinv.selfRec v hvL)
    · rw [if_neg hvp]
      exact hinv.selfRec v hvL
  · -- each live vertex is the minimum of its record
    intro v hv u hu
    rw [contractCore_live] at hv
    obtain ⟨hvq, hvL⟩ := Finset.mem_erase.mp hv
    rw [contractCore_contr] at hu
    by_cases hvp : v = p
    · subst hvp
      rw [if_pos rfl] at hu
      rcases Finset.mem_union.mp hu with h | h
      · exact hinv.minRec v hvL u h
      · exact le_trans (le_of_lt hlt) (hinv.minRec q hqL u h)
    · rw [if_neg hvp] at hu
      exact hinv.minRec v hvL u hu
  · -- records of distinct live vertices are disjoint
    intro u hu v hv huv
    rw [contractCore_live] at hu hv
    obtain ⟨huq, huL⟩ := Finset.mem_erase.mp hu
    obtain ⟨hvq, hvL⟩ := Finset.mem_erase.mp hv
    rw [contractCore_contr, contractCore_contr]
    by_cases hup : u = p
    · subst hup
      rw [if_pos rfl, if_neg (fun h => huv h.symm)]
      exact Finset.disjoint_union_left.mpr
        ⟨hinv.disjRec u huL v hvL huv, hinv.disjRec q hqL v hvL (fun h => hvq h.symm)⟩
    · rw [if_neg hup]
      by_cases hvp : v = p
      · subst hvp
        rw [if_pos rfl]
        exact Finset.disjoint_union_right.mpr
          ⟨hinv.disjRec u huL v hvL huv, hinv.disjRec u huL q hqL huq⟩
      · rw [if_neg hvp]
        exact hinv.disjRec u huL v hvL huv
  · -- the records still cover the whole vertex set
    rw [contractCore_live, ← hinv.cover]
    ext x
    simp only [Finset.mem_biUnion, Finset.mem_erase]
    constructor
    · rintro ⟨v, ⟨hvq, hvL⟩, hx⟩
      rw [contractCore_contr] at hx
      by_cases hvp : v = p
      · rw [if_pos hvp] at hx
        rcases Finset.mem_union.mp hx with h | h
        · exact ⟨p, hpL, h⟩
        · exact ⟨q, hqL, h⟩
      · rw [if_neg hvp] at hx
        exact ⟨v, hvL, hx⟩
    · rintro ⟨v, hvL, hx⟩
      by_cases hvq : v = q
      · refine ⟨p, ⟨hne', hpL⟩, ?_⟩
        rw [contractCore_contr, if_pos rfl]
        exact Finset.mem_union_right _ (hvq ▸ hx)
      · by_cases hvp : v = p
        · refine ⟨p, ⟨hne', hpL⟩, ?_⟩
          rw [contractCore_contr, if_pos rfl]
          exact Finset.mem_union_left _ (hvp ▸ hx)
        · refine ⟨v, ⟨hvq, hvL⟩, ?_⟩
          rw [contractCore_contr, if_neg hvp]
          exact hx
  · -- multiplicities still count crossing original edges
    intro u hu v hv huv
    rw [contractCore_live] at hu hv
    obtain ⟨huq, huL⟩ := Finset.mem_erase.mp hu
    obtain ⟨hvq, hvL⟩ := Finset.mem_erase.mp hv
    rw [contractCore_adj hinv hlt, contractCore_contr, contractCore_contr,
      if_neg (show ¬(u = q ∨ v = q) from fun h => h.elim huq hvq)]
    by_cases hup : u = p
    · subst hup
      rw [if_pos (show u = u ∧ v ≠ u from ⟨rfl, fun h => huv h.symm⟩), if_pos rfl,
        if_neg (fun h => huv h.symm)]
      rw [hinv.crossAdj u huL v hvL huv, hinv.crossAdj q hqL v hvL (fun h => hvq h.symm)]
      exact (crossCount_union_left g
        (hinv.disjRec u huL q hqL (fun h => huq h))
        (hinv.disjRec u huL v hvL huv)
        (hinv.disjRec q hqL v hvL (fun h => hvq h.symm))).symm
    · rw [if_neg (show ¬(u = p ∧ v ≠ p) from fun h => hup h.1), if_neg hup]
      by_cases hvp : v = p
      · subst hvp
        rw [if_pos (show v = v ∧ u ≠ v from ⟨rfl, hup⟩), if_pos rfl]
        rw [hinv.crossAdj u huL v hvL huv, hinv.crossAdj u huL q hqL huq]
        exact (crossCount_union_right g
          (hinv.disjRec v hvL q hqL (fun h => hvq h))
          (hinv.disjRec u huL v hvL huv)
          (hinv.disjRec u huL q hqL huq)).symm
      · rw [if_neg (show ¬(v = p ∧ u ≠ p) from fun h => hvp h.1), if_neg hvp]
        exact hinv.crossAdj u huL v hvL huv

/-- One contraction step removes exactly twice the contracted edge's
multiplicity from the total adjacency mass (the discarded self-loops). -/
theorem contractCore_mass (hinv : TrialInv g s) (hlt : p < q) (hpos : 0 < s.adj p q) :
    totalMass (contractCore s p q i) + 2 * s.adj p q = totalMass s := by
  have hne' : p ≠ q := ne_of_lt hlt
  have hpL : p ∈ s.live := (hinv.support p q hpos).1
  have hqL : q ∈ s.live := (hinv.support p q hpos).2
  have hpL' : p ∈ s.live.erase q := Finset.mem_erase.mpr ⟨hne', hpL⟩
  set L' := s.live.erase q with hL'
  set T1 := ∑ a ∈ L', ∑ b ∈ L', s.adj a b with hT1
  set T2 := ∑ b ∈ L'.erase p, s.adj q b with hT2
  set R := ∑ b ∈ s.live, s.adj q b with hR
  have hmass : totalMass (contractCore s p q i) =
      T1 +
      ((∑ a ∈ L', ∑ b ∈ L', if a = p ∧ b ≠ p then s.adj q b else 0) +
       (∑ a ∈ L', ∑ b ∈ L', if b = p ∧ a ≠ p then s.adj a q else 0)) := by
    rw [totalMass, contractCore_live, hT1, ← Finset.sum_add_distrib,
      ← Finset.sum_add_distrib, ← hL']
    apply Finset.sum_congr rfl
    intro a ha
    rw [← Finset.sum_add_distrib, ← Finset.sum_add_distrib]
    apply Finset.sum_congr rfl
    intro b hb
    obtain ⟨haq, -⟩ := Finset.mem_erase.mp ha
    obtain ⟨hbq, -⟩ := Finset.mem_erase.mp hb
    rw [contractCore_adj hinv hlt,
      if_neg (show ¬(a = q ∨ b = q) from fun h => h.elim haq hbq)]
    by_cases h2 : a = p ∧ b ≠ p
    · rw [if_pos h2, if_pos h2,
        if_neg (show ¬(b = p ∧ a ≠ p) from fun h => h2.2 h.1)]
      omega
    · rw [if_neg h2, if_neg h2]
      by_cases h3 : b = p ∧ a ≠ p
      · rw [if_pos h3, if_pos h3]
        omega
      · rw [if_neg h3, if_neg h3]
        omega
  have h2eq : (∑ a ∈ L', ∑ b ∈ L', if a = p ∧ b ≠ p then s.adj q b else 0) = T2 := by
    have hinner : ∀ a ∈ L', (∑ b ∈ L', if a = p ∧ b ≠ p then s.adj q b else 0) =
        if a = p then T2 else 0 := by
      intro a _
      by_cases hap : a = p
      · rw [if_pos hap, hT2]
        have hcond : ∀ b ∈ L', (if a = p ∧ b ≠ p then s.adj q b else 0) =
            if b ≠ p then s.adj q b else 0 := by
          intro b _
          by_cases hbp : b = p
          · rw [if_neg (fun h => h.2 hbp), if_neg (fun h => h hbp)]
          · rw [if_pos ⟨hap, hbp⟩, if_pos hbp]
        rw [Finset.sum_congr rfl hcond, ← Finset.sum_filter, Finset.filter_ne']
      · rw [if_neg hap]
        apply Finset.sum_eq_zero
        intro b _
        rw [if_neg (fun h => hap h.1)]
    rw [Finset.sum_congr rfl hinner, Finset.sum_ite_eq' L' p (fun _ => T2), if_pos hpL']
  have h3eq : (∑ a ∈ L', ∑ b ∈ L', if b = p ∧ a ≠ p then s.adj a q else 0) = T2 := by
    have hinner : ∀ a ∈ L', (∑ b ∈ L', if b = p ∧ a ≠ p then s.adj a q else 0) =
        if a = p then 0 else s.adj a q := by
      intro a _
      by_cases hap : a = p
      · rw [if_pos hap]
        apply Finset.sum_eq_zero
        intro b _
        rw [if_neg (fun h => h.2 hap)]
      · rw [if_neg hap]
        have : ∀ b ∈ L', (if b = p ∧ a ≠ p then s.adj a q else 0) =
            if b = p then s.adj a q else 0 := by
          intro b _
          by_cases hbp : b = p
          · rw [if_pos ⟨hbp, hap⟩, if_pos hbp]
          · rw [if_neg (fun h => hbp h.1), if_neg hbp]
        rw [Finset.sum_congr rfl this,
          Finset.sum_ite_eq' L' p (fun _ => s.adj a q), if_pos hpL']
    rw [Finset.sum_congr rfl hinner]
    have : ∀ a ∈ L', (if a = p then 0 else s.adj a q) =
        if a ≠ p then s.adj a q else 0 := by
      intro a _
      by_cases hap : a = p
      · rw [if_pos hap, if_neg (fun h => h hap)]
      · rw [if_neg hap, if_pos hap]
    rw [Finset.sum_congr rfl this, ← Finset.sum_filter, Finset.filter_ne' L' p]
    apply Finset.sum_congr rfl
    intro b _
    rw [hinv.symm b q]
  have hrow : ∀ a, (∑ b ∈ s.live, s.adj a b) = (∑ b ∈ L', s.adj a b) + s.adj a q :=
    fun a => (Finset.sum_erase_add s.live _ hqL).symm
  have hcolL : (∑ a ∈ L', s.adj a q) = R := by
    have h1 : (∑ a ∈ L', s.adj a q) + s.adj q q = ∑ a ∈ s.live, s.adj a q :=
      Finset.sum_erase_add s.live _ hqL
    rw [hinv.noSelf q, Nat.add_zero] at h1
    rw [h1, hR]
    apply Finset.sum_congr rfl
    intro a _
    rw [hinv.symm a q]
  have htotal : totalMass s = T1 + R + R := by
    rw [totalMass, ← Finset.sum_erase_add s.live _ hqL, ← hL', ← hR]
    rw [Finset.sum_congr rfl (fun a _ => hrow a), Finset.sum_add_distrib, ← hT1, hcolL]
  have hRT2 : R = T2 + s.adj q p := by
    have h1 : (∑ b ∈ L', s.adj q b) + s.adj q q = R := Finset.sum_erase_add s.live _ hqL
    rw [hinv.noSelf q, Nat.add_zero] at h1
    have h2 : T2 + s.adj q p = ∑ b ∈ L', s.adj q b := Finset.sum_erase_add L' _ hpL'
    rw [h2, h1]
  have hsym : s.adj p q = s.adj q p := hinv.symm p q
  omega

end ContractSpec

section InitTrial

variable {g : UndirectedGraph}

namespace UndirectedGraph

theorem WF.keysNodup (hg : g.WF) : (g.vertex_adjacencies.map Prod.fst).Nodup := hg.1

theorem WF.adjClosed (hg : g.WF) :
    ∀ v ∈ g.vertexSet, ∀ w ∈ g.adjOf v, w ∈ g.vertexSet ∧ v ≠ w ∧ v ∈ g.adjOf w := hg.2.1

theorem WF.edgesNodup (hg : g.WF) : g.edges.Nodup := hg.2.2.1

theorem WF.edgesChar (hg : g.WF) :
    ∀ e ∈ g.edges, e.1 < e.2 ∧ e.1 ∈ g.vertexSet ∧ e.2 ∈ g.adjOf e.1 := hg.2.2.2.1

theorem WF.edgesComplete (hg : g.WF) :
    ∀ v ∈ g.vertexSet, ∀ w ∈ g.adjOf v, pyOrder v w ∈ g.edges := hg.2.2.2.2

theorem WF.adj_iff (hg : g.WF) (a b : String) : b ∈ g.adjOf a ↔ a ∈ g.adjOf b := by
  constructor
  · intro h
    exact (hg.adjClosed a (hg.mem_vertexSet_of_adjOf h) b h).2.2
  · intro h
    exact (hg.adjClosed b (hg.mem_vertexSet_of_adjOf h) a h).2.2

theorem WF.not_self_adj (hg : g.WF) (a : String) : a ∉ g.adjOf a := by
  intro h
  exact (hg.adjClosed a (hg.mem_vertexSet_of_adjOf h) a h).2.1 rfl

theorem WF.adj_mem_vertexSet (hg : g.WF) {a b : String} (h : b ∈ g.adjOf a) :
    b ∈ g.vertexSet :=
  (hg.adjClosed a (hg.mem_vertexSet_of_adjOf h) b h).1

end UndirectedGraph

theorem countP_single_of_nodup {α : Type} [DecidableEq α] {l : List α} (hnd : l.Nodup)
    (a : α) : l.countP (fun x => decide (x = a)) = if a ∈ l then 1 else 0 := by
  induction l with
  | nil => rfl
  | cons y l ih =>
    rw [List.countP_cons, ih (List.nodup_cons.mp hnd).2]
    by_cases hya : y = a
    · subst hya
      rw [if_neg (List.nodup_cons.mp hnd).1, if_pos (List.mem_cons_self _ _)]
      simp
    · rw [show (decide (y = a)) = false by simp [hya]]
      simp only [Bool.false_eq_true, if_false, Nat.add_zero, List.mem_cons]
      by_cases hal : a ∈ l
      · rw [if_pos hal, if_pos (Or.inr hal)]
      · rw [if_neg hal, if_neg (by
          rintro (h | h)
          exacts [hya h.symm, hal h])]

theorem crossCount_singleton (hg : g.WF) {u v : String} (hu : u ∈ g.vertexSet)
    (huv : u ≠ v) :
    crossCount g {u} {v} = if v ∈ g.adjOf u then 1 else 0 := by
  unfold crossCount
  rw [List.countP_congr (q := fun e => decide (e = (u, v)) || decide (e = (v, u)))
    (by
      intro x _
      simp only [Finset.mem_singleton, decide_eq_true_eq, Bool.or_eq_true, Prod.ext_iff]
      try tauto),
    countP_or_of_exclusive _ _ _ (by
      intro x _
      simp only [decide_eq_true_eq]
      rintro ⟨rfl, h⟩
      exact huv (congrArg Prod.fst h)),
    countP_single_of_nodup hg.edgesNodup, countP_single_of_nodup hg.edgesNodup]
  by_cases hadj : v ∈ g.adjOf u
  · rw [if_pos hadj]
    have hmem := hg.edgesComplete u hu v hadj
    have huv' := (hg.adjClosed u hu v hadj).2.1
    rcases lt_or_gt_of_ne huv' with hlt | hgt
    · have h1 : (u, v) ∈ g.edges := by
        rw [show (u, v) = pyOrder u v from (if_pos hlt).symm]
        exact hmem
      have h2 : (v, u) ∉ g.edges := fun h => asymm hlt (hg.edgesChar _ h).1
      rw [if_pos h1, if_neg h2]
    · have h1 : (v, u) ∈ g.edges := by
        rw [show (v, u) = pyOrder u v from (if_neg (asymm hgt)).symm]
        exact hmem
      have h2 : (u, v) ∉ g.edges := fun h => asymm hgt (hg.edgesChar _ h).1
      rw [if_neg h2, if_pos h1]
  · rw [if_neg hadj,
      if_neg (fun h => hadj (hg.edgesChar _ h).2.2),
      if_neg (fun h => hadj ((hg.adj_iff u v).mpr (hg.edgesChar _ h).2.2))]

/-- A well-formed graph's initial trial state satisfies the invariant. -/
theorem initTrial_inv (hg : g.WF) : TrialInv g (initTrial g) := by
  have hadj : ∀ a b : String, (initTrial g).adj a b = if b ∈ g.adjOf a then 1 else 0 :=
    fun a b => rfl
  refine ⟨?_, ?_, ?_, ?_, hg.edgesNodup, rfl, rfl, ?_, ?_, ?_, ?_, ?_⟩
  · intro a b
    rw [hadj, hadj]
    by_cases h : b ∈ g.adjOf a
    · rw [if_pos h, if_pos ((hg.adj_iff a b).mp h)]
    · rw [if_neg h, if_neg (fun h' => h ((hg.adj_iff a b).mpr h'))]
  · intro a b hab
    rw [hadj] at hab
    by_cases h : b ∈ g.adjOf a
    · exact ⟨hg.mem_vertexSet_of_adjOf h, hg.adj_mem_vertexSet h⟩
    · rw [if_neg h] at hab
      exact absurd hab (lt_irrefl 0)
  · intro a
    rw [hadj, if_neg (hg.not_self_adj a)]
  · intro e
    show e ∈ g.edges.toFinset ↔ _
    rw [List.mem_toFinset, hadj]
    constructor
    · intro h
      refine ⟨(hg.edgesChar e h).1, ?_⟩
      rw [if_pos (hg.edgesChar e h).2.2]
      exact Nat.zero_lt_one
    · rintro ⟨hord, hpos⟩
      by_cases h : e.2 ∈ g.adjOf e.1
      · have := hg.edgesComplete e.1 (hg.mem_vertexSet_of_adjOf h) e.2 h
        rw [show pyOrder e.1 e.2 = (e.1, e.2) from if_pos hord] at this
        exact this
      · rw [if_neg h] at hpos
        exact absurd hpos (lt_irrefl 0)
  · intro v _
    exact Finset.mem_singleton_self v
  · intro v _ u hu
    rw [Finset.mem_singleton.mp hu]
  · intro u _ v _ huv
    exact Finset.disjoint_singleton.mpr huv
  · exact Finset.biUnion_singleton_eq_self
  · intro u hu v hv huv
    show (if v ∈ g.adjOf u then 1 else 0) = crossCount g {u} {v}
    rw [crossCount_singleton hg hu huv]

/-- In the initial state every declared adjacency has multiplicity one, so
the total mass is twice the number of edges (the handshake identity). -/
theorem totalMass_initTrial (hg : g.WF) : totalMass (initTrial g) = 2 * g.edges.length := by
  have hstep : totalMass (initTrial g) =
      ((g.vertexSet ×ˢ g.vertexSet).filter (fun e => e.2 ∈ g.adjOf e.1)).card := by
    rw [Finset.card_filter, Finset.sum_product]
    rfl
  have hset : (g.vertexSet ×ˢ g.vertexSet).filter (fun e => e.2 ∈ g.adjOf e.1) =
      g.edges.toFinset ∪ g.edges.toFinset.image Prod.swap := by
    ext x
    simp only [Finset.mem_filter, Finset.mem_product, Finset.mem_union, Finset.mem_image,
      List.mem_toFinset]
    constructor
    · rintro ⟨⟨h1, h2⟩, hadj⟩
      have hmem := hg.edgesComplete x.1 h1 x.2 hadj
      have hne := (hg.adjClosed x.1 h1 x.2 hadj).2.1
      unfold pyOrder at hmem
      by_cases hlt : x.1 < x.2
      · rw [if_pos hlt] at hmem
        exact Or.inl hmem
      · rw [if_neg hlt] at hmem
        exact Or.inr ⟨(x.2, x.1), hmem, rfl⟩
    · rintro (h | ⟨y, hy, rfl⟩)
      · obtain ⟨-, h1, h2⟩ := hg.edgesChar x h
        exact ⟨⟨h1, hg.adj_mem_vertexSet h2⟩, h2⟩
      · obtain ⟨-, h1, h2⟩ := hg.edgesChar y hy
        exact ⟨⟨hg.adj_mem_vertexSet h2, h1⟩, (hg.adj_iff y.1 y.2).mp h2⟩
  have hdisj : Disjoint g.edges.toFinset (g.edges.toFinset.image Prod.swap) := by
    rw [Finset.disjoint_left]
    intro x hx hx'
    rcases Finset.mem_image.mp hx' with ⟨y, hy, hxy⟩
    have h1 := (hg.edgesChar x (List.mem_toFinset.mp hx)).1
    have h2 := (hg.edgesChar y (List.mem_toFinset.mp hy)).1
    rw [← hxy] at h1
    exact asymm h1 h2
  rw [hstep, hset, Finset.card_union_of_disjoint hdisj,
    Finset.card_image_of_injective _ Prod.swap_injective,
    List.toFinset_card_of_nodup hg.edgesNodup]
  omega

theorem contractPick_spec {s : TrialState} (hne : s.edges_list ≠ []) (k : Nat) :
    contractPick s k = s.edges_list.get
      ⟨k % s.edges_list.length, Nat.mod_lt _ (List.length_pos.mpr hne)⟩ := by
  unfold contractPick
  rw [List.getD_eq_getElem?_getD,
    List.getElem?_eq_getElem (Nat.mod_lt _ (List.length_pos.mpr hne)), Option.getD_some,
    List.get_eq_getElem]

theorem contractStep_inv {g : UndirectedGraph} {s : TrialState} (hinv : TrialInv g s)
    (hne : s.edges_list ≠ []) (k : Nat) : TrialInv g (contractStep s k) := by
  have hi : k % s.edges_list.length < s.edges_list.length :=
    Nat.mod_lt _ (List.length_pos.mpr hne)
  have hget : contractPick s k = s.edges_list[k % s.edges_list.length] :=
    (contractPick_spec hne k).trans (List.get_eq_getElem _ _)
  have hmem : contractPick s k ∈ s.edges_list := by
    rw [hget]
    exact List.getElem_mem hi
  have hes : contractPick s k ∈ s.edges_set := by
    rw [← hinv.elSet]
    exact List.mem_toFinset.mpr hmem
  obtain ⟨hlt, hpos⟩ := (hinv.esAdj _).mp hes
  have hei : s.edges_list[k % s.edges_list.length] =
      ((contractPick s k).1, (contractPick s k).2) := by
    rw [← hget]
  exact contractCore_inv hinv hlt hpos hi hei

theorem contractStep_mass {g : UndirectedGraph} {s : TrialState} (hinv : TrialInv g s)
    (hne : s.edges_list ≠ []) (k : Nat) :
    totalMass (contractStep s k) + 2 * discardOf s k = totalMass s := by
  have hi : k % s.edges_list.length < s.edges_list.length :=
    Nat.mod_lt _ (List.length_pos.mpr hne)
  have hget : contractPick s k = s.edges_list[k % s.edges_list.length] :=
    (contractPick_spec hne k).trans (List.get_eq_getElem _ _)
  have hmem : contractPick s k ∈ s.edges_list := by
    rw [hget]
    exact List.getElem_mem hi
  have hes : contractPick s k ∈ s.edges_set := by
    rw [← hinv.elSet]
    exact List.mem_toFinset.mpr hmem
  obtain ⟨hlt, hpos⟩ := (hinv.esAdj _).mp hes
  exact contractCore_mass hinv hlt hpos

theorem trialStep_inv {g : UndirectedGraph} {s : TrialState} (hinv : TrialInv g s)
    (k : Nat) : TrialInv g (trialStep s k) := by
  unfold trialStep
  split
  · rename_i h
    exact contractStep_inv hinv (by
      intro hnil
      rw [hnil] at h
      exact absurd h (by simp)) k
  · exact hinv

theorem trialRun_inv {g : UndirectedGraph} {s : TrialState} (hinv : TrialInv g s)
    (ks : List Nat) : TrialInv g (trialRun s ks) := by
  induction ks generalizing s with
  | nil => exact hinv
  | cons k ks ih => exact ih (trialStep_inv hinv k)

theorem trialRun_mass {g : UndirectedGraph} {s : TrialState} (hinv : TrialInv g s)
    (ks : List Nat) :
    totalMass (trialRun s ks) + 2 * trialDiscarded s ks = totalMass s := by
  induction ks generalizing s with
  | nil => simp [trialRun, trialDiscarded]
  | cons k ks ih =>
    rw [show trialRun s (k :: ks) = trialRun (trialStep s k) ks from rfl,
      show trialDiscarded s (k :: ks) =
        (if 1 < s.edges_list.length then discardOf s k else 0) +
          trialDiscarded (trialStep s k) ks from rfl]
    have h1 := ih (trialStep_inv hinv k)
    by_cases hg1 : 1 < s.edges_list.length
    · have hstep : trialStep s k = contractStep s k := if_pos hg1
      rw [hstep] at h1
      rw [hstep, if_pos hg1]
      have h2 := contractStep_mass hinv (by
        intro hnil
        rw [hnil] at hg1
        exact absurd hg1 (by simp)) k
      omega
    · have hstep : trialStep s k = s := if_neg hg1
      rw [hstep] at h1
      rw [hstep, if_neg hg1]
      omega

/-- What holds of the pair returned by a successful trial (source lines
130-137): the two contraction records are nonempty, disjoint, cover the
original vertex set, the number of original edges between them is the final
multiplicity (= the target), and the first component contains the
lexicographically least vertex. -/
theorem trial_finish {g : UndirectedGraph} {target : Nat} {s : TrialState}
    {F S : Finset String} (hinv : TrialInv g s) (hcard : s.live.card = 2)
    {e : String × String} (hgl : s.edges_list.getLast? = some e)
    (htar : s.adj e.1 e.2 = target)
    (hFS : (if e.1 < e.2 then (s.contr e.1, s.contr e.2)
            else (s.contr e.2, s.contr e.1)) = (F, S)) :
    F.Nonempty ∧ S.Nonempty ∧ Disjoint F S ∧ F ∪ S = g.vertexSet ∧
      crossCount g F S = target ∧
      (∀ m ∈ g.vertexSet, (∀ v ∈ g.vertexSet, m ≤ v) → m ∈ F ∧ m ∉ S) := by
  have hmem : e ∈ s.edges_list := List.mem_of_mem_getLast? (Option.mem_def.mpr hgl)
  have hes : e ∈ s.edges_set := by
    rw [← hinv.elSet]
    exact List.mem_toFinset.mpr hmem
  obtain ⟨hlt, hpos⟩ := (hinv.esAdj e).mp hes
  have hne : e.1 ≠ e.2 := ne_of_lt hlt
  have h1L : e.1 ∈ s.live := (hinv.support e.1 e.2 hpos).1
  have h2L : e.2 ∈ s.live := (hinv.support e.1 e.2 hpos).2
  have hlive : ({e.1, e.2} : Finset String) = s.live := by
    apply Finset.eq_of_subset_of_card_le
    · intro x hx
      rcases Finset.mem_insert.mp hx with rfl | hx
      · exact h1L
      · rw [Finset.mem_singleton.mp hx]
        exact h2L
    · rw [hcard, Finset.card_insert_of_not_mem (by
        rw [Finset.mem_singleton]
        exact hne), Finset.card_singleton]
  rw [if_pos hlt] at hFS
  injection hFS with hF hS
  subst hF
  subst hS
  have h1V : e.1 ∈ g.vertexSet := by
    rw [← hinv.cover]
    exact Finset.mem_biUnion.mpr ⟨e.1, h1L, hinv.selfRec e.1 h1L⟩
  have hunion : s.contr e.1 ∪ s.contr e.2 = g.vertexSet := by
    rw [← hinv.cover, ← hlive, Finset.biUnion_insert, Finset.singleton_biUnion]
  have hdisj : Disjoint (s.contr e.1) (s.contr e.2) :=
    hinv.disjRec e.1 h1L e.2 h2L hne
  refine ⟨⟨e.1, hinv.selfRec e.1 h1L⟩, ⟨e.2, hinv.selfRec e.2 h2L⟩, hdisj, hunion,
    (hinv.crossAdj e.1 h1L e.2 h2L hne).symm.trans htar, ?_⟩
  intro m hm hmin
  have hmU : m ∈ s.contr e.1 ∪ s.contr e.2 := by
    rw [hunion]
    exact hm
  have hmF : m ∈ s.contr e.1 := by
    rcases Finset.mem_union.mp hmU with h | h
    · exact h
    · exfalso
      have h1 : e.2 ≤ m := hinv.minRec e.2 h2L m h
      have h2 : m ≤ e.1 := hmin e.1 h1V
      exact absurd (lt_of_le_of_lt (le_trans h1 h2) hlt) (lt_irrefl e.2)
  exact ⟨hmF, fun hmS => Finset.disjoint_left.mp hdisj hmF hmS⟩

/-- The outer-loop bookkeeping invariant: the stage-two trial counter never
exceeds its bound, a counter at the bound forces the cache to be empty, and
any cached stage-one state satisfies the trial invariant. -/
def KsInv (g : UndirectedGraph) (ks : KargerState) : Prop :=
  ks.stage_two_iterations ≤ stage_two_max_iterations ∧
  (stage_two_max_iterations ≤ ks.stage_two_iterations → ks.stage_one_results = none) ∧
  (∀ c, ks.stage_one_results = some c → TrialInv g c)

theorem stageBookkeeping_ksInv {g : UndirectedGraph} {ks : KargerState} {s : TrialState}
    (h : KsInv g ks) (hs : TrialInv g s) : KsInv g (stageBookkeeping ks s) := by
  obtain ⟨h1, h2, h3⟩ := h
  have hmax : 1 ≤ stage_two_max_iterations := by
    unfold stage_two_max_iterations
    omega
  unfold stageBookkeeping
  rcases hso : ks.stage_one_results with _ | c
  · by_cases hc : s.live.card = stage_one_min_vertices
    · simp only [if_pos hc]
      split
      · exact ⟨hmax, fun _ => rfl, fun c' hc' => Option.noConfusion hc'⟩
      · rename_i hm
        exact ⟨hmax, fun hh => absurd hh hm, fun c' hc' => by
          cases Option.some_inj.mp hc'
          exact hs⟩
    · simp only [if_neg hc]
      split
      · exact ⟨h1, fun _ => rfl, fun c' hc' => Option.noConfusion hc'⟩
      · rename_i hm
        exact ⟨h1, fun hh => absurd hh hm, fun c' hc' => h3 c' hc'⟩
  · have hlt : ks.stage_two_iterations < stage_two_max_iterations := by
      rcases Nat.lt_or_ge ks.stage_two_iterations stage_two_max_iterations with h | h
      · exact h
      · rw [h2 h] at hso
        exact Option.noConfusion hso
    have hb : ks.stage_two_iterations + 1 ≤ stage_two_max_iterations := hlt
    by_cases hc : s.live.card = stage_one_min_vertices
    · simp only [if_pos hc]
      split
      · exact ⟨hb, fun _ => rfl, fun c' hc' => Option.noConfusion hc'⟩
      · rename_i hm
        exact ⟨hb, fun hh => absurd hh hm, fun c' hc' => by
          cases Option.some_inj.mp (show some c = some c' from hc')
          exact h3 c hso⟩
    · simp only [if_neg hc]
      split
      · exact ⟨h1, fun _ => rfl, fun c' hc' => Option.noConfusion hc'⟩
      · rename_i hm
        exact ⟨h1, fun hh => absurd hh hm, fun c' hc' => h3 c' hc'⟩

/-- Any normal return of the bounded runner satisfies the conclusions of
`trial_finish`: the returned pair really is the advertised partition and
cut, whatever draws the rng supplied and wherever the trial restarted from
the stage-one cache. -/
theorem runAux_ok {g : UndirectedGraph} {target : Nat} {rng : Nat → Nat}
    {fuel : Nat} {ks : KargerState} {os : Option TrialState} {k : Nat}
    {F S : Finset String}
    (hg : g.WF) (hks : KsInv g ks) (hos : ∀ s, os = some s → TrialInv g s)
    (hrun : runAux g target rng fuel ks os k = .ok (F, S)) :
    F.Nonempty ∧ S.Nonempty ∧ Disjoint F S ∧ F ∪ S = g.vertexSet ∧
      crossCount g F S = target ∧
      (∀ m ∈ g.vertexSet, (∀ v ∈ g.vertexSet, m ≤ v) → m ∈ F ∧ m ∉ S) := by
  induction fuel generalizing ks os k with
  | zero =>
    exact RunOutcome.noConfusion
      (show RunOutcome.fuelOut = RunOutcome.ok (F, S) from hrun)
  | succ fuel ih =>
    cases os with
    | none =>
      rw [show runAux g target rng (fuel + 1) ks none k =
        runAux g target rng fuel ks
          (some (ks.stage_one_results.getD (initTrial g))) k from rfl] at hrun
      refine ih hks ?_ hrun
      intro s hs
      rcases hso : ks.stage_one_results with _ | c
      · rw [hso] at hs
        cases Option.some_inj.mp hs
        exact initTrial_inv hg
      · rw [hso] at hs
        cases Option.some_inj.mp hs
        exact hks.2.2 c hso
    | some s =>
      have hsI : TrialInv g s := hos s rfl
      rw [show runAux g target rng (fuel + 1) ks (some s) k =
        (if 1 < s.edges_list.length then
          runAux g target rng fuel (stageBookkeeping ks s)
            (some (contractStep s (rng k))) (k + 1)
        else
          if s.live.card = 2 ∧ s.contrKeys.card = 2 then
            match s.edges_list.getLast? with
            | none => .crash
            | some e =>
              if s.adj e.1 e.2 = s.adj e.2 e.1 ∧
                  e.1 ∈ s.contrKeys ∧ e.2 ∈ s.contrKeys then
                if s.adj e.1 e.2 = target then
                  .ok (if e.1 < e.2 then (s.contr e.1, s.contr e.2)
                       else (s.contr e.2, s.contr e.1))
                else runAux g target rng fuel ks none k
              else .crash
          else .crash) from rfl] at hrun
      by_cases hlen : 1 < s.edges_list.length
      · rw [if_pos hlen] at hrun
        refine ih (stageBookkeeping_ksInv hks hsI) ?_ hrun
        intro t ht
        cases Option.some_inj.mp ht
        exact contractStep_inv hsI (by
          intro hnil
          rw [hnil] at hlen
          exact absurd hlen (by simp)) _
      · rw [if_neg hlen] at hrun
        by_cases hc2 : s.live.card = 2 ∧ s.contrKeys.card = 2
        · rw [if_pos hc2] at hrun
          rcases hgl : s.edges_list.getLast? with _ | e
          · rw [hgl] at hrun
            exact RunOutcome.noConfusion hrun
          · rw [hgl] at hrun
            replace hrun :
                (if s.adj e.1 e.2 = s.adj e.2 e.1 ∧
                    e.1 ∈ s.contrKeys ∧ e.2 ∈ s.contrKeys then
                  if s.adj e.1 e.2 = target then
                    RunOutcome.ok (if e.1 < e.2 then (s.contr e.1, s.contr e.2)
                         else (s.contr e.2, s.contr e.1))
                  else runAux g target rng fuel ks none k
                else RunOutcome.crash) = RunOutcome.ok (F, S) := hrun
            by_cases hass : s.adj e.1 e.2 = s.adj e.2 e.1 ∧
                e.1 ∈ s.contrKeys ∧ e.2 ∈ s.contrKeys
            · rw [if_pos hass] at hrun
              by_cases htar : s.adj e.1 e.2 = target
              · rw [if_pos htar] at hrun
                injection hrun with hFS
                exact trial_finish hsI hc2.1 hgl htar hFS
              · rw [if_neg htar] at hrun
                exact ih hks (fun t ht => Option.noConfusion ht) hrun
            · rw [if_neg hass] at hrun
              exact RunOutcome.noConfusion hrun
        · rw [if_neg hc2] at hrun
          exact RunOutcome.noConfusion hrun

/-- Specialisation of `runAux_ok` to the entry point. -/
theorem calculate_min_cut_ok {g : UndirectedGraph} {target : Nat}
    {rng : Nat → Nat} {fuel : Nat} {F S : Finset String}
    (hg : g.WF)
    (hrun : g.calculate_min_cut target rng fuel = .ok (F, S)) :
    F.Nonempty ∧ S.Nonempty ∧ Disjoint F S ∧ F ∪ S = g.vertexSet ∧
      crossCount g F S = target ∧
      (∀ m ∈ g.vertexSet, (∀ v ∈ g.vertexSet, m ≤ v) → m ∈ F ∧ m ∉ S) := by
  have h1 : (1 : Nat) ≤ stage_two_max_iterations := by
    unfold stage_two_max_iterations
    omega
  have h2 : ¬ stage_two_max_iterations ≤ 1 := by
    unfold stage_two_max_iterations
    omega
  exact runAux_ok hg ⟨h1, fun h => absurd h h2, fun c hc => Option.noConfusion hc⟩
    (fun s hs => Option.noConfusion hs) hrun

/-! ## The claims -/

/-- Claim C1 (confirmed): whenever `calculate_min_cut` returns a pair of
vertex sets on a well-formed graph, the number of original edges (counting
parallel multiplicity, which for a constructed graph is 1 per distinct
pair) with one endpoint in each returned set equals the requested
`target` cut size exactly. -/
theorem claim_C1 {g : UndirectedGraph} {target : Nat} {rng : Nat → Nat}
    {fuel : Nat} {F S : Finset String} (hg : g.WF)
    (hrun : g.calculate_min_cut target rng fuel = .ok (F, S)) :
    crossCount g F S = target :=
  (calculate_min_cut_ok hg hrun).2.2.2.2.1

/-- Witness for C1: a complete concrete run on the triangle graph. -/
theorem claim_C1_witness : crossCount triangleGraph {"a", "b"} {"c"} = 2 :=
  @claim_C1 triangleGraph 2 (fun _ => 0) 5 {"a", "b"} {"c"} (by decide) (by decide)

/-- Claim C2 (confirmed): throughout every trial the contraction records of
the live vertices are nonempty, pairwise disjoint and cover the original
vertex set; consequently the two returned sets are nonempty, disjoint, and
their union is the full vertex set. -/
theorem claim_C2 {g : UndirectedGraph} (hg : g.WF) :
    (∀ ks : List Nat,
      (∀ v ∈ (trialRun (initTrial g) ks).live,
        ((trialRun (initTrial g) ks).contr v).Nonempty) ∧
      (∀ u ∈ (trialRun (initTrial g) ks).live,
        ∀ v ∈ (trialRun (initTrial g) ks).live, u ≠ v →
          Disjoint ((trialRun (initTrial g) ks).contr u)
            ((trialRun (initTrial g) ks).contr v)) ∧
      (trialRun (initTrial g) ks).live.biUnion (trialRun (initTrial g) ks).contr =
        g.vertexSet) ∧
    (∀ target rng fuel F S,
      g.calculate_min_cut target rng fuel = .ok (F, S) →
      F.Nonempty ∧ S.Nonempty ∧ Disjoint F S ∧ F ∪ S = g.vertexSet) := by
  constructor
  · intro ks
    have h := trialRun_inv (initTrial_inv hg) ks
    exact ⟨fun v hv => ⟨v, h.selfRec v hv⟩, h.disjRec, h.cover⟩
  · intro target rng fuel F S hrun
    obtain ⟨h1, h2, h3, h4, _⟩ := calculate_min_cut_ok hg hrun
    exact ⟨h1, h2, h3, h4⟩

/-- Witness for C2: the record cover after one concrete contraction step on
the triangle graph. -/
theorem claim_C2_witness :
    (trialRun (initTrial triangleGraph) [0]).live.biUnion
      (trialRun (initTrial triangleGraph) [0]).contr = triangleGraph.vertexSet :=
  ((@claim_C2 triangleGraph (by decide)).1 [0]).2.2

theorem count_pair_bridge (l : List (String × String)) (e : String × String) :
    l.count e = @List.count _ instBEqOfDecidableEq e l := by
  induction l with
  | nil => rfl
  | cons x xs ih =>
    simp only [List.count_cons, ih]
    by_cases h : x = e <;> simp [h, instBEqOfDecidableEq]

/-- Claim C4 (confirmed): at every point of a trial, `edges_list` holds each
distinct ordered vertex pair of positive current multiplicity exactly once
and nothing else, so the uniform index draw picks distinct pairs
unweighted by parallel multiplicity. -/
theorem claim_C4 {g : UndirectedGraph} (hg : g.WF) (ks : List Nat)
    (e : String × String) :
    (trialRun (initTrial g) ks).edges_list.count e =
      if e.1 < e.2 ∧ 0 < (trialRun (initTrial g) ks).adj e.1 e.2 then 1 else 0 := by
  have h := trialRun_inv (initTrial_inv hg) ks
  rw [count_pair_bridge, List.count_eq_of_nodup h.elNodup]
  by_cases hm : e ∈ (trialRun (initTrial g) ks).edges_list
  · rw [if_pos hm,
      if_pos ((h.esAdj e).mp (by rw [← h.elSet]; exact List.mem_toFinset.mpr hm))]
  · rw [if_neg hm, if_neg (fun hc => hm (by
      rw [← List.mem_toFinset, h.elSet]
      exact (h.esAdj e).mpr hc))]

/-- Witness for C4: the initial edge pool of the triangle graph. -/
theorem claim_C4_witness :
    (trialRun (initTrial triangleGraph) []).edges_list.count ("a", "b") =
      if ("a" : String) < "b" ∧
          0 < (trialRun (initTrial triangleGraph) []).adj "a" "b" then 1 else 0 :=
  @claim_C4 triangleGraph (by decide) [] ("a", "b")

/-- Claim C5 (confirmed): after any prefix of guarded contraction steps,
half the total adjacency mass equals the original edge count minus the
multiplicity discarded as self-loops so far in the trial. -/
theorem claim_C5 {g : UndirectedGraph} (hg : g.WF) (ks : List Nat) :
    totalMass (trialRun (initTrial g) ks) / 2 =
      g.edges.length - trialDiscarded (initTrial g) ks := by
  have h1 := trialRun_mass (initTrial_inv hg) ks
  have h2 := totalMass_initTrial hg
  omega

/-- Witness for C5: mass bookkeeping after one concrete contraction on the
triangle graph. -/
theorem claim_C5_witness :
    totalMass (trialRun (initTrial triangleGraph) [0]) / 2 =
      triangleGraph.edges.length - trialDiscarded (initTrial triangleGraph) [0] :=
  @claim_C5 triangleGraph (by decide) [0]

/-- Claim C9 (confirmed): the run is a deterministic function of the input,
target and the random stream; two runs whose streams agree at every draw
return identical outcomes. -/
theorem claim_C9 {g : UndirectedGraph} (target : Nat) (rng1 rng2 : Nat → Nat)
    (fuel : Nat) (h : ∀ n, rng1 n = rng2 n) :
    g.calculate_min_cut target rng1 fuel = g.calculate_min_cut target rng2 fuel := by
  rw [funext h]

/-- Witness for C9: two syntactically different but pointwise equal streams. -/
theorem claim_C9_witness :
    triangleGraph.calculate_min_cut 2 (fun n => n * 0) 5 =
      triangleGraph.calculate_min_cut 2 (fun _ => 0) 5 :=
  @claim_C9 triangleGraph 2 (fun n => n * 0) (fun _ => 0) 5 (fun n => Nat.mul_zero n)

/-- Claim C10 (confirmed): every live supernode is the lexicographically
least label of its contraction record, and the first returned set is the
side holding the lexicographically least vertex of the whole graph. -/
theorem claim_C10 {g : UndirectedGraph} (hg : g.WF) :
    (∀ ks : List Nat, ∀ v ∈ (trialRun (initTrial g) ks).live,
      v ∈ (trialRun (initTrial g) ks).contr v ∧
      ∀ u ∈ (trialRun (initTrial g) ks).contr v, v ≤ u) ∧
    (∀ target rng fuel F S m,
      g.calculate_min_cut target rng fuel = .ok (F, S) →
      m ∈ g.vertexSet → (∀ v ∈ g.vertexSet, m ≤ v) → m ∈ F ∧ m ∉ S) := by
  constructor
  · intro ks v hv
    have h := trialRun_inv (initTrial_inv hg) ks
    exact ⟨h.selfRec v hv, h.minRec v hv⟩
  · intro target rng fuel F S m hrun hm hmin
    exact (calculate_min_cut_ok hg hrun).2.2.2.2.2 m hm hmin

/-- Witness for C10: on the triangle run the least vertex lands in the
first returned set. -/
theorem claim_C10_witness :
    "a" ∈ ({"a", "b"} : Finset String) ∧ "a" ∉ ({"c"} : Finset String) :=
  (@claim_C10 triangleGraph (by decide)).2 2 (fun _ => 0) 5 {"a", "b"} {"c"} "a"
    (by decide) (by decide) (by decide)

theorem mem_dedup_aux (ws : List String) (acc : List String) (w : String) :
    w ∈ ws.foldl (fun acc u => if u ∈ acc then acc else acc ++ [u]) acc ↔
      w ∈ acc ∨ w ∈ ws := by
  induction ws generalizing acc with
  | nil => simp
  | cons u us ih =>
    simp only [List.foldl_cons]
    rw [ih]
    by_cases h : u ∈ acc
    · rw [if_pos h]
      constructor
      · rintro (h1 | h1)
        · exact Or.inl h1
        · exact Or.inr (List.mem_cons_of_mem _ h1)
      · rintro (h1 | h1)
        · exact Or.inl h1
        · rcases List.mem_cons.mp h1 with rfl | h1
          · exact Or.inl h
          · exact Or.inr h1
    · rw [if_neg h]
      simp only [List.mem_append, List.mem_singleton, List.mem_cons]
      tauto

theorem processLine_ok_no_self {d : List (String × Finset String)}
    {es : List (String × String)} {v : String} {ws : List String}
    {p : List (String × Finset String) × List (String × String)}
    (h : UndirectedGraph.processLine d es v ws = .ok p) : v ∉ ws := by
  intro hvw
  have hvd : v ∈ ws.foldl (fun acc u => if u ∈ acc then acc else acc ++ [u]) [] :=
    (mem_dedup_aux ws [] v).mpr (Or.inr hvw)
  simp only [UndirectedGraph.processLine] at h
  rw [if_pos hvd] at h
  exact Except.noConfusion h

theorem processLine_error_selfLoop {d : List (String × Finset String)}
    {es : List (String × String)} {v : String} {ws : List String}
    {e : FromLinesError}
    (h : UndirectedGraph.processLine d es v ws = .error e) :
    e = .selfLoop ∧ v ∈ ws := by
  simp only [UndirectedGraph.processLine] at h
  by_cases hvd : v ∈ ws.foldl (fun acc u => if u ∈ acc then acc else acc ++ [u]) [] 
  · rw [if_pos hvd] at h
    injection h with h
    exact ⟨h.symm, by simpa using (mem_dedup_aux ws [] v).mp hvd⟩
  · rw [if_neg hvd] at h
    exact Except.noConfusion h

theorem from_linesAux_ok_lines : ∀ {lines : List String}
    {i : Nat} {d : List (String × Finset String)} {es : List (String × String)}
    {g : UndirectedGraph},
    UndirectedGraph.from_linesAux i d es lines = .ok g →
    ∀ l ∈ lines, ∃ v ws, parseLine l = some (v, ws) ∧ v ∉ ws := by
  intro lines
  induction lines with
  | nil =>
    intro i d es g h l hl
    exact absurd hl (List.not_mem_nil l)
  | cons line rest ih =>
    intro i d es g h l hl
    rcases hp : parseLine line with _ | ⟨v, ws⟩
    · rw [UndirectedGraph.from_linesAux, hp] at h
      exact Except.noConfusion h
    · rw [UndirectedGraph.from_linesAux, hp] at h
      rcases hq : UndirectedGraph.processLine d es v ws with e | ⟨d2, es2⟩
      · simp only [hq] at h
        exact Except.noConfusion h
      · simp only [hq] at h
        rcases List.mem_cons.mp hl with rfl | hl2
        · exact ⟨v, ws, hp, processLine_ok_no_self hq⟩
        · exact ih h l hl2

theorem from_linesAux_invalid : ∀ {lines : List String}
    {i : Nat} {d : List (String × Finset String)} {es : List (String × String)}
    {n : Nat} {l : String},
    UndirectedGraph.from_linesAux i d es lines = .error (.invalidLine n l) →
    i < n ∧ n ≤ i + lines.length ∧ lines.getD (n - 1 - i) "" = l ∧
      parseLine l = none := by
  intro lines
  induction lines with
  | nil =>
    intro i d es n l h
    exact Except.noConfusion h
  | cons line rest ih =>
    intro i d es n l h
    rcases hp : parseLine line with _ | ⟨v, ws⟩
    · rw [UndirectedGraph.from_linesAux, hp] at h
      injection h with h
      injection h with h1 h2
      refine ⟨by omega, by simp; omega, ?_, ?_⟩
      · have : n - 1 - i = 0 := by omega
        rw [this, List.getD_cons_zero]
        exact h2
      · rw [← h2]
        exact hp
    · rw [UndirectedGraph.from_linesAux, hp] at h
      rcases hq : UndirectedGraph.processLine d es v ws with e | ⟨d2, es2⟩
      · simp only [hq] at h
        have hsl := (processLine_error_selfLoop hq).1
        rw [hsl] at h
        simp at h
      · simp only [hq] at h
        obtain ⟨h1, h2, h3, h4⟩ := ih h
        refine ⟨by omega, by simp; omega, ?_, h4⟩
        have hsub : n - 1 - i = (n - 1 - (i + 1)) + 1 := by omega
        rw [hsub, List.getD_cons_succ]
        exact h3

/-- Claim C8 (confirmed): `from_lines` fails at construction time — before
any contraction state exists — on every line that does not parse (the
`ValueError` carries the offending 1-based line number and the line
itself) and on every self-loop declaration; conversely a successful
construction means every line parsed and no vertex declared itself. -/
theorem claim_C8 :
    (∀ lines g, UndirectedGraph.from_lines lines = .ok g →
      ∀ l ∈ lines, ∃ v ws, parseLine l = some (v, ws) ∧ v ∉ ws) ∧
    (∀ lines n l,
      UndirectedGraph.from_lines lines = .error (.invalidLine n l) →
      1 ≤ n ∧ n ≤ lines.length ∧ lines.getD (n - 1) "" = l ∧
        parseLine l = none) ∧
    UndirectedGraph.from_lines ["a: a"] = .error .selfLoop ∧
    UndirectedGraph.from_lines ["jqt & rhn"] =
      .error (.invalidLine 1 "jqt & rhn") := by
  refine ⟨?_, ?_, rfl, rfl⟩
  · intro lines g h l hl
    exact from_linesAux_ok_lines h l hl
  · intro lines n l h
    obtain ⟨h1, h2, h3, h4⟩ := from_linesAux_invalid h
    refine ⟨h1, by simpa using h2, ?_, h4⟩
    have : n - 1 - 0 = n - 1 := by omega
    rw [this] at h3
    exact h3

/-- Witness for C8: instantiating the success characterisation on the
triangle input. -/
theorem claim_C8_witness :
    ∃ v ws, parseLine "a: b c" = some (v, ws) ∧ v ∉ ws :=
  claim_C8.1 ["a: b c", "b: c"] triangleGraph rfl "a: b c" (by simp)

/-! ## The stage bookkeeping bound (claim C6) -/

theorem runReach_inv {g : UndirectedGraph} {target : Nat} {rng : Nat → Nat}
    {ks : KargerState} {os : Option TrialState} {k : Nat}
    (hg : g.WF) (h : RunReach g target rng ks os k) :
    KsInv g ks ∧ ∀ s, os = some s → TrialInv g s := by
  induction h with
  | start =>
    have hmax : (1 : Nat) ≤ stage_two_max_iterations := by
      unfold stage_two_max_iterations
      omega
    have hnot : ¬ stage_two_max_iterations ≤ 1 := by
      unfold stage_two_max_iterations
      omega
    exact ⟨⟨hmax, fun hh => absurd hh hnot, fun c hc => Option.noConfusion hc⟩,
      fun s hs => Option.noConfusion hs⟩
  | materialise ks0 k0 hprev ih =>
    obtain ⟨hks, _⟩ := ih
    refine ⟨hks, ?_⟩
    intro s hs
    cases Option.some_inj.mp hs
    rcases hso : ks0.stage_one_results with _ | c
    · exact initTrial_inv hg
    · exact hks.2.2 c hso
  | contract ks0 s0 k0 hprev hlen ih =>
    obtain ⟨hks, hos⟩ := ih
    have hs := hos _ rfl
    refine ⟨stageBookkeeping_ksInv hks hs, ?_⟩
    intro t ht
    cases Option.some_inj.mp ht
    exact contractStep_inv hs (by
      intro hnil
      rw [hnil] at hlen
      exact absurd hlen (by simp)) _
  | retry ks0 s0 k0 e0 hprev hlen hcards hlast hassert htar ih =>
    exact ⟨ih.1, fun s hs => Option.noConfusion hs⟩

theorem stageBookkeeping_discard (ks : KargerState) (s : TrialState) :
    stage_two_max_iterations ≤ (stageBookkeeping ks s).stage_two_iterations →
    (stageBookkeeping ks s).stage_one_results = none := by
  unfold stageBookkeeping
  rcases hso : ks.stage_one_results with _ | c
  · by_cases hc : s.live.card = stage_one_min_vertices
    · simp only [if_pos hc]
      split
      · intro _
        rfl
      · rename_i hm
        intro h
        exact absurd h hm
    · simp only [if_neg hc]
      split
      · intro _
        rfl
      · rename_i hm
        intro h
        exact absurd h hm
  · by_cases hc : s.live.card = stage_one_min_vertices
    · simp only [if_pos hc]
      split
      · intro _
        rfl
      · rename_i hm
        intro h
        exact absurd h hm
    · simp only [if_neg hc]
      split
      · intro _
        rfl
      · rename_i hm
        intro h
        exact absurd h hm

theorem log_five_fourths_bounds :
    (2231428 : ℝ) / 10000000 < Real.log (5 / 4) ∧
      Real.log (5 / 4) < (2231442 : ℝ) / 10000000 := by
  have habs : |(1 / 5 : ℝ)| = 1 / 5 := by
    rw [abs_of_pos]
    norm_num
  have hx : |(1 / 5 : ℝ)| < 1 := by
    rw [habs]
    norm_num
  have h := Real.abs_log_sub_add_sum_range_le hx 8
  rw [habs] at h
  have h45 : (1 - 1 / 5 : ℝ) = (5 / 4)⁻¹ := by norm_num
  rw [h45, Real.log_inv, abs_le] at h
  obtain ⟨h1, h2⟩ := h
  simp only [Finset.sum_range_succ, Finset.sum_range_zero] at h1 h2
  norm_num at h1 h2
  constructor <;> linarith

theorem log_two_hundred_eq :
    Real.log 200 = 7 * Real.log 2 + 2 * Real.log (5 / 4) := by
  have h : (200 : ℝ) = 2 ^ 7 * (5 / 4) ^ 2 := by norm_num
  rw [h, Real.log_mul (by norm_num) (by norm_num), Real.log_pow, Real.log_pow]
  push_cast
  ring

theorem nineteen_nine_hundred_log_bounds :
    (105436 : ℝ) < 19900 * Real.log 200 ∧ (19900 : ℝ) * Real.log 200 ≤ 105437 := by
  obtain ⟨hL1, hL2⟩ := log_five_fourths_bounds
  have h2a := Real.log_two_gt_d9
  have h2b := Real.log_two_lt_d9
  rw [log_two_hundred_eq]
  constructor <;> nlinarith [hL1, hL2, h2a, h2b]

theorem stage_two_max_iterations_eq_ceil :
    (stage_two_max_iterations : ℤ) =
      ⌈(Nat.choose stage_one_min_vertices 2 : ℝ) *
        Real.log stage_one_min_vertices⌉ := by
  have hch : ((Nat.choose stage_one_min_vertices 2 : ℕ) : ℝ) = 19900 := by
    have : Nat.choose stage_one_min_vertices 2 = 19900 := by
      rw [Nat.choose_two_right]
      rfl
    rw [this]
    norm_num
  have hs : ((stage_one_min_vertices : ℕ) : ℝ) = 200 := by
    norm_num [stage_one_min_vertices]
  rw [hch, hs]
  obtain ⟨hlo, hhi⟩ := nineteen_nine_hundred_log_bounds
  rw [show (stage_two_max_iterations : ℤ) = 105437 from rfl]
  symm
  rw [Int.ceil_eq_iff]
  constructor
  · push_cast
    linarith
  · push_cast
    linarith

/-- Claim C6 (confirmed): the stage-one threshold is `⌈2 / 0.01⌉ = 200`
live vertices; the stage-two trial counter is bounded by
`⌈C(200, 2) · ln 200⌉ = 105437` in every reachable configuration; when the
bookkeeping reaches that bound it discards the cached stage-one state, and
with an empty cache the next trial re-materialises from the original
graph. -/
theorem claim_C6 :
    stage_one_min_vertices = 200 ∧
    ⌈(2 : ℝ) / 0.01⌉ = (stage_one_min_vertices : ℤ) ∧
    ((stage_two_max_iterations : ℤ) =
      ⌈(Nat.choose stage_one_min_vertices 2 : ℝ) *
        Real.log stage_one_min_vertices⌉) ∧
    (∀ g target rng ks os k, UndirectedGraph.WF g →
      RunReach g target rng ks os k →
      ks.stage_two_iterations ≤ stage_two_max_iterations) ∧
    (∀ ks s,
      stage_two_max_iterations ≤ (stageBookkeeping ks s).stage_two_iterations →
      (stageBookkeeping ks s).stage_one_results = none) ∧
    (∀ g target rng fuel ks k, ks.stage_one_results = none →
      runAux g target rng (fuel + 1) ks none k =
        runAux g target rng fuel ks (some (initTrial g)) k) := by
  refine ⟨rfl, ?_, stage_two_max_iterations_eq_ceil, ?_, stageBookkeeping_discard, ?_⟩
  · have h : (2 : ℝ) / 0.01 = ((200 : ℤ) : ℝ) := by norm_num
    rw [h, Int.ceil_intCast]
    rfl
  · intro g target rng ks os k hg hreach
    exact (runReach_inv hg hreach).1.1
  · intro g target rng fuel ks k hnone
    rw [show runAux g target rng (fuel + 1) ks none k =
      runAux g target rng fuel ks
        (some (ks.stage_one_results.getD (initTrial g))) k from rfl, hnone]
    rfl

/-- Witness for C6: the counter bound at the initial configuration of a
concrete run. -/
theorem claim_C6_witness :
    (⟨none, 1⟩ : KargerState).stage_two_iterations ≤ stage_two_max_iterations :=
  claim_C6.2.2.2.1 triangleGraph 2 (fun n => n) ⟨none, 1⟩ none 0 (by decide)
    RunReach.start

/-! ## Idempotence of construction under duplicate declarations (claim C7) -/

theorem lookup_map_update (d : List (String × Finset String)) (k : String)
    (vs : Finset String) (x : String) :
    (d.map (fun p => if p.1 = k then (p.1, p.2 ∪ vs) else p)).lookup x =
      (d.lookup x).map (fun s => if x = k then s ∪ vs else s) := by
  induction d with
  | nil => rfl
  | cons p rest ih =>
    rcases p with ⟨a, b⟩
    simp only [List.map_cons]
    by_cases hak : a = k
    · subst hak
      rw [if_pos rfl]
      by_cases hxa : x = a
      · subst hxa
        simp [List.lookup_cons]
      · have hbeq : (x == a) = false := by simp [hxa]
        simp [List.lookup_cons, hbeq, hxa, ih]
    · rw [if_neg hak]
      by_cases hxa : x = a
      · subst hxa
        simp [List.lookup_cons, hak]
      · have hbeq : (x == a) = false := by simp [hxa]
        simp [List.lookup_cons, hbeq, ih]

theorem lookup_append_single (d : List (String × Finset String)) (k : String)
    (vs : Finset String) (x : String) :
    (d ++ [(k, vs)]).lookup x =
      match d.lookup x with
      | some s => some s
      | none => if x = k then some vs else none := by
  induction d with
  | nil =>
    by_cases hxk : x = k
    · have hbeq : (x == k) = true := by simp [hxk]
      simp [List.lookup_cons, hbeq, hxk]
    · have hbeq : (x == k) = false := by simp [hxk]
      simp [List.lookup_cons, hbeq, hxk]
  | cons p rest ih =>
    rcases p with ⟨a, b⟩
    by_cases hxa : x = a
    · have hbeq : (x == a) = true := by simp [hxa]
      simp [List.lookup_cons, hbeq]
    · have hbeq : (x == a) = false := by simp [hxa]
      simp [List.lookup_cons, hbeq, ih]

theorem dictGet_addToDict (d : List (String × Finset String)) (k : String)
    (vs : Finset String) (x : String) :
    dictGet (UndirectedGraph.addToDict d k vs) x =
      if x = k then dictGet d k ∪ vs else dictGet d x := by
  unfold UndirectedGraph.addToDict
  by_cases hks : (d.lookup k).isSome
  · rw [if_pos hks]
    unfold dictGet
    rw [lookup_map_update]
    by_cases hxk : x = k
    · subst hxk
      obtain ⟨s, hs⟩ := Option.isSome_iff_exists.mp hks
      simp [hs]
    · rcases h : d.lookup x with _ | s <;> simp [h, hxk]
  · rw [if_neg hks]
    unfold dictGet
    rw [lookup_append_single]
    have hnone : d.lookup k = none := Option.not_isSome_iff_eq_none.mp hks
    by_cases hxk : x = k
    · subst hxk
      simp [hnone]
    · rcases h : d.lookup x with _ | s <;> simp [h, hxk]

theorem keys_map_update (d : List (String × Finset String)) (k : String)
    (vs : Finset String) :
    dictKeys (d.map (fun p => if p.1 = k then (p.1, p.2 ∪ vs) else p)) =
      dictKeys d := by
  unfold dictKeys
  rw [List.map_map]
  congr 1
  apply List.map_congr_left
  intro p _
  by_cases h : p.1 = k <;> simp [h]

theorem mem_keys_of_lookup_isSome {d : List (String × Finset String)} {k : String}
    (h : (d.lookup k).isSome) : k ∈ dictKeys d := by
  induction d with
  | nil => simp [List.lookup_nil] at h
  | cons p rest ih =>
    rcases p with ⟨a, b⟩
    by_cases hka : k = a
    · simp [dictKeys, hka]
    · have hbeq : (k == a) = false := by simp [hka]
      rw [List.lookup_cons] at h
      simp only [hbeq] at h
      have := ih h
      simp [dictKeys] at this ⊢
      exact Or.inr this

theorem dictKeys_addToDict (d : List (String × Finset String)) (k : String)
    (vs : Finset String) :
    dictKeys (UndirectedGraph.addToDict d k vs) = insert k (dictKeys d) := by
  unfold UndirectedGraph.addToDict
  by_cases hks : (d.lookup k).isSome
  · rw [if_pos hks, keys_map_update]
    exact (Finset.insert_eq_self.mpr (mem_keys_of_lookup_isSome hks)).symm
  · rw [if_neg hks]
    unfold dictKeys
    rw [List.map_append, List.toFinset_append]
    simp [Finset.union_comm, ← Finset.insert_eq]

theorem addEdge_toFinset (es : List (String × String)) (e : String × String) :
    (UndirectedGraph.addEdge es e).toFinset = insert e es.toFinset := by
  unfold UndirectedGraph.addEdge
  split
  · rename_i h
    exact (Finset.insert_eq_self.mpr (List.mem_toFinset.mpr h)).symm
  · rw [List.toFinset_append]
    simp only [List.toFinset_cons, List.toFinset_nil, insert_emptyc_eq]
    rw [Finset.union_comm]
    exact (Finset.insert_eq e es.toFinset).symm

theorem procFold_get (v : String) : ∀ (us : List String)
    (D0 : List (String × Finset String)) (E0 : List (String × String)) (x : String),
    dictGet ((us.foldl (fun st w =>
        (UndirectedGraph.addToDict st.1 w {v},
         UndirectedGraph.addEdge st.2 (pyOrder v w))) (D0, E0)).1) x =
      if x ∈ us then dictGet D0 x ∪ {v} else dictGet D0 x := by
  intro us
  induction us with
  | nil =>
    intro D0 E0 x
    simp
  | cons w us ih =>
    intro D0 E0 x
    simp only [List.foldl_cons]
    rw [ih]
    by_cases hw : x = w <;> by_cases hx : x ∈ us <;>
      simp [dictGet_addToDict, hw, hx, List.mem_cons, Finset.union_assoc,
        Finset.union_self]

theorem procFold_keys (v : String) : ∀ (us : List String)
    (D0 : List (String × Finset String)) (E0 : List (String × String)),
    dictKeys ((us.foldl (fun st w =>
        (UndirectedGraph.addToDict st.1 w {v},
         UndirectedGraph.addEdge st.2 (pyOrder v w))) (D0, E0)).1) =
      dictKeys D0 ∪ us.toFinset := by
  intro us
  induction us with
  | nil =>
    intro D0 E0
    simp
  | cons w us ih =>
    intro D0 E0
    simp only [List.foldl_cons]
    rw [ih, dictKeys_addToDict]
    simp [Finset.insert_union, Finset.union_insert]

theorem procFold_edges (v : String) : ∀ (us : List String)
    (D0 : List (String × Finset String)) (E0 : List (String × String)),
    ((us.foldl (fun st w =>
        (UndirectedGraph.addToDict st.1 w {v},
         UndirectedGraph.addEdge st.2 (pyOrder v w))) (D0, E0)).2).toFinset =
      E0.toFinset ∪ us.toFinset.image (pyOrder v) := by
  intro us
  induction us with
  | nil =>
    intro D0 E0
    simp
  | cons w us ih =>
    intro D0 E0
    simp only [List.foldl_cons]
    rw [ih, addEdge_toFinset]
    simp [Finset.image_insert, Finset.insert_union, Finset.union_insert]

theorem dedup_toFinset (ws : List String) :
    (ws.foldl (fun acc u => if u ∈ acc then acc else acc ++ [u]) []).toFinset =
      ws.toFinset := by
  ext x
  simp [List.mem_toFinset, mem_dedup_aux ws [] x]

theorem mem_dedup (ws : List String) (x : String) :
    x ∈ ws.foldl (fun acc u => if u ∈ acc then acc else acc ++ [u]) [] ↔
      x ∈ ws := by
  rw [mem_dedup_aux ws [] x]
  simp

theorem processLine_ok_spec (d : List (String × Finset String))
    (es : List (String × String)) (v : String) (ws : List String) (hv : v ∉ ws) :
    ∃ D E, UndirectedGraph.processLine d es v ws = .ok (D, E) ∧
      (∀ x, dictGet D x =
        if x = v then dictGet d v ∪ ws.toFinset
        else if x ∈ ws then dictGet d x ∪ {v} else dictGet d x) ∧
      dictKeys D = insert v (dictKeys d ∪ ws.toFinset) ∧
      E.toFinset = es.toFinset ∪ ws.toFinset.image (pyOrder v) := by
  have hvd : v ∉ ws.foldl (fun acc u => if u ∈ acc then acc else acc ++ [u]) [] :=
    fun h => hv ((mem_dedup ws v).mp h)
  simp only [UndirectedGraph.processLine]
  rw [if_neg hvd]
  refine ⟨_, _, rfl, ?_, ?_, ?_⟩
  · intro x
    rw [procFold_get]
    by_cases hxv : x = v
    · subst hxv
      rw [if_neg hvd, if_pos rfl, dictGet_addToDict, if_pos rfl, dedup_toFinset]
    · by_cases hxw : x ∈ ws
      · rw [if_pos ((mem_dedup ws x).mpr hxw), dictGet_addToDict, if_neg hxv,
          if_neg hxv, if_pos hxw]
      · rw [if_neg (fun h => hxw ((mem_dedup ws x).mp h)), dictGet_addToDict,
          if_neg hxv, if_neg hxv, if_neg hxw]
  · rw [procFold_keys, dictKeys_addToDict, dedup_toFinset]
    simp [Finset.insert_union]
  · rw [procFold_edges, dedup_toFinset]

theorem from_linesAux_congr : ∀ {rest : List String} {i i' : Nat}
    {d d' : List (String × Finset String)} {es es' : List (String × String)}
    {g : UndirectedGraph},
    (∀ x, dictGet d x = dictGet d' x) → dictKeys d = dictKeys d' →
    es.toFinset = es'.toFinset →
    UndirectedGraph.from_linesAux i d es rest = .ok g →
    ∃ g', UndirectedGraph.from_linesAux i' d' es' rest = .ok g' ∧ pyEq g' g := by
  intro rest
  induction rest with
  | nil =>
    intro i i' d d' es es' g hget hkeys hes h
    rw [UndirectedGraph.from_linesAux] at h
    injection h with h
    subst h
    exact ⟨⟨d', es'⟩, rfl, hkeys.symm, fun v hv => (hget v).symm, hes.symm⟩
  | cons line rest ih =>
    intro i i' d d' es es' g hget hkeys hes h
    rcases hp : parseLine line with _ | ⟨v, ws⟩
    · rw [UndirectedGraph.from_linesAux, hp] at h
      exact Except.noConfusion h
    · rw [UndirectedGraph.from_linesAux, hp] at h
      rw [UndirectedGraph.from_linesAux, hp]
      rcases hq : UndirectedGraph.processLine d es v ws with e | ⟨D, E⟩
      · simp only [hq] at h
        exact Except.noConfusion h
      · simp only [hq] at h
        have hv : v ∉ ws := processLine_ok_no_self hq
        obtain ⟨D1, E1, hq1, hg1, hk1, he1⟩ := processLine_ok_spec d es v ws hv
        rw [hq1] at hq
        injection hq with hq
        injection hq with hqD hqE
        subst hqD
        subst hqE
        obtain ⟨D2, E2, hq2, hg2, hk2, he2⟩ := processLine_ok_spec d' es' v ws hv
        simp only [hq2]
        refine ih (fun x => ?_) ?_ ?_ h
        · rw [hg2 x, hg1 x]
          simp only [hget]
        · rw [hk2, hk1, hkeys]
        · rw [he2, he1, hes]

theorem from_linesAux_dup {l1 l2 l12 v : String} {ws1 ws2 : List String}
    {post : List String} {i i' : Nat} {d : List (String × Finset String)}
    {es : List (String × String)} {g : UndirectedGraph}
    (hp1 : parseLine l1 = some (v, ws1)) (hp2 : parseLine l2 = some (v, ws2))
    (hp12 : parseLine l12 = some (v, ws1 ++ ws2))
    (h : UndirectedGraph.from_linesAux i d es (l12 :: post) = .ok g) :
    ∃ g', UndirectedGraph.from_linesAux i' d es (l1 :: l2 :: post) = .ok g' ∧
      pyEq g' g := by
  rw [UndirectedGraph.from_linesAux, hp12] at h
  rcases hq : UndirectedGraph.processLine d es v (ws1 ++ ws2) with e | ⟨D, E⟩
  · simp only [hq] at h
    exact Except.noConfusion h
  · simp only [hq] at h
    have hv : v ∉ ws1 ++ ws2 := processLine_ok_no_self hq
    have hv1 : v ∉ ws1 := fun hh => hv (List.mem_append.mpr (Or.inl hh))
    have hv2 : v ∉ ws2 := fun hh => hv (List.mem_append.mpr (Or.inr hh))
    obtain ⟨Dm, Em, hqm, hgm, hkm, hem⟩ :=
      processLine_ok_spec d es v (ws1 ++ ws2) hv
    rw [hqm] at hq
    injection hq with hq
    injection hq with hqD hqE
    subst hqD
    subst hqE
    obtain ⟨D1, E1, hq1, hg1, hk1, he1⟩ := processLine_ok_spec d es v ws1 hv1
    obtain ⟨D2, E2, hq2, hg2, hk2, he2⟩ := processLine_ok_spec D1 E1 v ws2 hv2
    rw [UndirectedGraph.from_linesAux, hp1]
    simp only [hq1]
    rw [UndirectedGraph.from_linesAux, hp2]
    simp only [hq2]
    refine from_linesAux_congr (fun x => ?_) ?_ ?_ h
    · rw [hg2 x, hgm x]
      by_cases hxv : x = v
      · subst hxv
        rw [if_pos rfl, if_pos rfl]
        have hD1 : dictGet D1 x = dictGet d x ∪ ws1.toFinset := by
          rw [hg1 x, if_pos rfl]
        rw [hD1, List.toFinset_append, Finset.union_assoc]
      · rw [if_neg hxv, if_neg hxv]
        have hD1 : dictGet D1 x =
            if x ∈ ws1 then dictGet d x ∪ {v} else dictGet d x := by
          rw [hg1 x, if_neg hxv]
        by_cases hx2 : x ∈ ws2
        · rw [if_pos hx2, if_pos (List.mem_append.mpr (Or.inr hx2))]
          by_cases hx1 : x ∈ ws1
          · rw [hD1, if_pos hx1, Finset.union_assoc, Finset.union_self]
          · rw [hD1, if_neg hx1]
        · rw [if_neg hx2]
          by_cases hx1 : x ∈ ws1
          · rw [hD1, if_pos hx1, if_pos (List.mem_append.mpr (Or.inl hx1))]
          · rw [hD1, if_neg hx1,
              if_neg (fun hh => (List.mem_append.mp hh).elim hx1 hx2)]
    · rw [hk2, hk1, hkm, List.toFinset_append]
      ext y
      simp only [Finset.mem_insert, Finset.mem_union]
      tauto
    · rw [he2, he1, hem, List.toFinset_append, Finset.image_union,
        Finset.union_assoc]

theorem from_linesAux_dup_pre {l1 l2 l12 v : String} {ws1 ws2 : List String}
    {post : List String}
    (hp1 : parseLine l1 = some (v, ws1)) (hp2 : parseLine l2 = some (v, ws2))
    (hp12 : parseLine l12 = some (v, ws1 ++ ws2)) :
    ∀ (pre : List String) {i i' : Nat} {d : List (String × Finset String)}
      {es : List (String × String)} {g : UndirectedGraph},
    UndirectedGraph.from_linesAux i d es (pre ++ l12 :: post) = .ok g →
    ∃ g', UndirectedGraph.from_linesAux i' d es (pre ++ l1 :: l2 :: post) = .ok g' ∧
      pyEq g' g := by
  intro pre
  induction pre with
  | nil =>
    intro i i' d es g h
    exact from_linesAux_dup hp1 hp2 hp12 h
  | cons line pre ih =>
    intro i i' d es g h
    rw [List.cons_append] at h ⊢
    rcases hp : parseLine line with _ | ⟨v0, ws0⟩
    · rw [UndirectedGraph.from_linesAux, hp] at h
      exact Except.noConfusion h
    · rw [UndirectedGraph.from_linesAux, hp] at h
      rw [UndirectedGraph.from_linesAux, hp]
      rcases hq : UndirectedGraph.processLine d es v0 ws0 with e | ⟨D, E⟩
      · simp only [hq] at h
        exact Except.noConfusion h
      · simp only [hq] at h ⊢
        exact ih h

/-- Claim C7 (confirmed): declaring a vertex on two lines builds the same
graph, in the sense of Python `==`, as declaring the concatenation once
(whenever the merged input constructs successfully, so does the split one,
with an extensionally equal dictionary and edge set); concretely
`from_lines(['a: b', 'a: b c'])` equals `from_lines(['a: b c'])` outright. -/
theorem claim_C7 :
    (∀ (pre post : List String) (l1 l2 l12 v : String) (ws1 ws2 : List String)
      (g : UndirectedGraph),
      parseLine l1 = some (v, ws1) → parseLine l2 = some (v, ws2) →
      parseLine l12 = some (v, ws1 ++ ws2) →
      UndirectedGraph.from_lines (pre ++ l12 :: post) = .ok g →
      ∃ g', UndirectedGraph.from_lines (pre ++ l1 :: l2 :: post) = .ok g' ∧
        pyEq g' g) ∧
    UndirectedGraph.from_lines ["a: b", "a: b c"] =
      UndirectedGraph.from_lines ["a: b c"] := by
  constructor
  · intro pre post l1 l2 l12 v ws1 ws2 g hp1 hp2 hp12 h
    exact from_linesAux_dup_pre hp1 hp2 hp12 pre h
  · have e1 : UndirectedGraph.from_lines ["a: b", "a: b c"] = .ok dupGraphA := rfl
    have e2 : UndirectedGraph.from_lines ["a: b c"] = .ok dupGraphB := rfl
    have e3 : dupGraphA = dupGraphB := by decide
    rw [e1, e2, e3]

/-- Witness for C7: a concrete split declaration related to its merged
form. -/
theorem claim_C7_witness :
    ∃ g', UndirectedGraph.from_lines ["a: b", "a: c"] = .ok g' ∧
      pyEq g' dupGraphB :=
  claim_C7.1 [] [] "a: b" "a: c" "a: b c" "a" ["b"] ["c"] dupGraphB rfl rfl rfl rfl
